import Mathlib

/-!
Verification of the MCAST scan-and-score pipeline (src/src/mcast.c).

The development shallowly embeds the match-processing core of
`mcast_read_and_score`, the heap purge routine `purge_match_heap`, the
provisional-fit routine `calc_init_distr`, the finalization routine
`calc_pq_values` and the pipeline wiring of `mcast`/`main`.

C doubles are modelled as rationals; a possibly-NaN double (the match
p-value before an EVD fit exists) is modelled as `Option ℚ` with `none`
playing the role of NaN, and the C comparison operators on doubles are
modelled by functions that return `false` whenever either operand is NaN,
matching IEEE semantics.

Code of the repository that is not under src/ (heap.c, fitevd.c,
mcast-match.c, the alphabet module, qvalue.c, the random number
generator) is modelled from the spec: the heap is a bounded collection
whose root is the entry with the worst (largest) p-value, NaN sorting as
most significant; the EVD set exposes `n`, a p-value function and a GC-bin
function; the PRNG draw is an arbitrary index input.
-/

set_option maxHeartbeats 1000000

namespace Mcast

/-- Model of a possibly-NaN double p-value: `none` is NaN. -/
abbrev Pval := Option ℚ

/-- Heap ordering key for a p-value. Modelled from the spec: the heap is a
max-heap on p-value and NaN ("unset") sorts as most significant, i.e. below
every number, so it is never evicted first. -/
def pvalKey : Pval → WithBot ℚ
  | none => ⊥
  | some x => (x : WithBot ℚ)

/-- C `<` on doubles where `none` models NaN: any comparison involving NaN
is false. -/
def clt : Pval → Pval → Bool
  | some x, some y => decide (x < y)
  | _, _ => false

/-- C `>=` on doubles where `none` models NaN: any comparison involving NaN
is false. -/
def cge : Pval → Pval → Bool
  | some x, some y => decide (y ≤ x)
  | _, _ => false

/-- One reservoir sample, mirroring the SCORE fields written at
mcast.c:876-884. -/
structure SCORE where
  s : ℚ
  t : ℕ
  nhits : ℕ
  span : ℕ
  gc : ℚ
  serial_no : ℚ
deriving DecidableEq

/-- The score set, mirroring the SCORE_SET fields used by
mcast_read_and_score (mcast.c:847-885): `scores` is the reservoir whose
logical length is `n` and whose capacity is `max_scores_saved`. -/
structure SCORE_SET where
  num_scores_seen : ℕ
  n : ℕ
  max_scores_saved : ℕ
  scores : List SCORE
  max_t : ℕ
deriving DecidableEq

/-- The data of one extracted match that the scoring loop consumes
(mcast.c:836-845), together with the PRNG index drawn at mcast.c:862
(`num_scores_seen * mts_drand(prng)` truncated to int, a value in
`[0, num_scores_seen)`), which we take as an input. -/
structure MatchEvent where
  viterbi_score : ℚ
  gc : ℚ
  length : ℕ
  nhits : ℕ
  span : ℕ
  draw : ℕ
deriving DecidableEq

/-- The sample record built from a match at mcast.c:876-884. -/
def score_sample (serial_no : ℚ) (ev : MatchEvent) : SCORE :=
  ⟨ev.viterbi_score, ev.length, ev.nhits, ev.span, ev.gc, serial_no⟩

/-- Reservoir update, mirroring mcast.c:849-885: `num_scores_seen` is
incremented; while `n < max_scores_saved` the sample is stored at slot `n`
(an append, since the reservoir's logical length is `n`) and `n` is
incremented; otherwise the drawn index accepts the sample iff it is below
the capacity, in which case it overwrites that slot.  The serial counter
is incremented exactly when the sample is stored. -/
def mcast_record_score (ss : SCORE_SET) (serial_no : ℚ) (ev : MatchEvent) :
    SCORE_SET × ℚ :=
  let seen := ss.num_scores_seen + 1
  if ss.n < ss.max_scores_saved then
    ({ ss with num_scores_seen := seen, n := ss.n + 1,
               scores := ss.scores ++ [score_sample serial_no ev],
               max_t := if ss.max_t < ev.length then ev.length else ss.max_t },
     serial_no + 1)
  else if ev.draw < ss.max_scores_saved then
    ({ ss with num_scores_seen := seen,
               scores := ss.scores.set ev.draw (score_sample serial_no ev),
               max_t := if ss.max_t < ev.length then ev.length else ss.max_t },
     serial_no + 1)
  else
    ({ ss with num_scores_seen := seen }, serial_no)

/-- The empty score set with reservoir capacity `cap`
(set_up_score_set followed by the mm_resize at mcast.c:1639-1640). -/
def initScoreSet (cap : ℕ) : SCORE_SET := ⟨0, 0, cap, [], 0⟩

/-- A stream element for the reservoir-uniformity analysis: the j-th score
sample carries the value `j` so that distinct stream elements are
distinguishable, and `draw` is the PRNG index used if sampling occurs. -/
def sampleEvent (j : ℕ) (draw : ℕ) : MatchEvent := ⟨(j : ℚ), 0, 0, 0, 0, draw⟩

/-- Run the reservoir over the stream of samples `0, 1, ...` with the given
draw sequence. -/
def runRes (cap : ℕ) (d : List ℕ) : SCORE_SET :=
  ((List.range d.length).zip d).foldl
    (fun ss ti => (mcast_record_score ss 0 (sampleEvent ti.1 ti.2)).1)
    (initScoreSet cap)

/-- All draw sequences of length `t`: the draw at 0-based step `k` is made
after `num_scores_seen` reaches `k + 1`, so it ranges over `[0, k + 1)`. -/
def validDraws : ℕ → List (List ℕ)
  | 0 => [[]]
  | t + 1 => (validDraws t).flatMap (fun d => (List.range (t + 1)).map (fun i => d ++ [i]))

/-- Whether the j-th stream sample is present in the final reservoir. -/
def resHolds (cap : ℕ) (d : List ℕ) (j : ℕ) : Bool :=
  (runRes cap d).scores.any (fun sc => sc.s = (j : ℚ))

/-- One retained match record with the fields of MCAST_MATCH used by
mcast.c (mcast-match.c itself is not in src; fields modelled from the
spec's MatchRecord). -/
structure MCAST_MATCH where
  score : ℚ
  gc : ℚ
  gc_bin : ℤ
  pvalue : Pval
  evalue : ℚ
  qvalue : ℚ
deriving DecidableEq

/-- Heap key of a match record: its p-value under the spec's ordering. -/
def matchKey (r : MCAST_MATCH) : WithBot ℚ := pvalKey r.pvalue

/-- Modelled from the spec (heap.c is not in src): popping the root of the
match heap removes and returns an entry with maximal key, i.e. the worst
(largest) p-value, NaN sorting as most significant. -/
def pop_heap_root (h : List MCAST_MATCH) : Option (MCAST_MATCH × List MCAST_MATCH) :=
  match h.argmax matchKey with
  | none => none
  | some v => some (v, h.erase v)

/-- First phase of purge_match_heap (mcast.c:600-608): pop the root `k`
times, recording each victim's p-value in `min_pvalue_discarded`.  Returns
the remaining heap, the final `min_pvalue_discarded` and the list of
victims in pop order. -/
def purge_pop_loop : ℕ → List MCAST_MATCH → Pval →
    List MCAST_MATCH × Pval × List MCAST_MATCH
  | 0, h, m => (h, m, [])
  | k + 1, h, m =>
    match pop_heap_root h with
    | none => (h, m, [])
    | some (v, h1) =>
      let r := purge_pop_loop k h1 v.pvalue
      (r.1, r.2.1, v :: r.2.2)

/-- Second phase of purge_match_heap (mcast.c:610-626), fuelled: while the
heap is nonempty and the root's p-value is `>=` `min_pvalue_discarded`
(a C double comparison, false on NaN), pop and discard the root.  Returns
the remaining heap and the extra victims.  Fuel at least the heap size
makes the fuel immaterial because each iteration removes one entry. -/
def purge_tie_fuel (m : Pval) : ℕ → List MCAST_MATCH →
    List MCAST_MATCH × List MCAST_MATCH
  | 0, h => (h, [])
  | fuel + 1, h =>
    match pop_heap_root h with
    | none => (h, [])
    | some (v, h1) =>
      if cge v.pvalue m then
        let r := purge_tie_fuel m fuel h1
        (r.1, v :: r.2)
      else (h, [])

/-- Second phase of purge_match_heap with sufficient fuel. -/
def purge_tie_loop (m : Pval) (h : List MCAST_MATCH) :
    List MCAST_MATCH × List MCAST_MATCH :=
  purge_tie_fuel m h.length h

/-- purge_match_heap (mcast.c:586-638): delete `size / 2` entries (C
integer division) in order of decreasing p-value, then keep deleting while
the new root's p-value is `>=` the minimum p-value discarded so far
(initially 1.0), and return that minimum.  The result is
(retained heap, returned minimum, phase-one victims, phase-two victims);
the C function frees the victims, which we keep for specification. -/
def purge_match_heap (h : List MCAST_MATCH) :
    List MCAST_MATCH × Pval × List MCAST_MATCH × List MCAST_MATCH :=
  let num_matches_to_delete := h.length / 2
  let r1 := purge_pop_loop num_matches_to_delete h (some 1)
  let r2 := purge_tie_loop r1.2.1 r1.1
  (r2.1, r1.2.1, r1.2.2, r2.2)

/-- State of the match-retention heap across the scan: the heap contents,
the current `min_pvalue_discarded` threshold (1.0 before any purge,
mcast.c:716) and, as specification bookkeeping, every record ever freed by
a purge. -/
structure HeapSt where
  heap : List MCAST_MATCH
  min_pvalue_discarded : Pval
  purged : List MCAST_MATCH
deriving DecidableEq

/-- Initial heap state (empty heap, threshold 1.0, nothing purged). -/
def initHeapSt : HeapSt := ⟨[], some 1, []⟩

/-- The save-match step of mcast_read_and_score (mcast.c:911, 981,
986-996): a match is inserted iff its p-value is `<`
`min_pvalue_discarded` or is NaN; if after insertion the heap size equals
`max_nodes` (the heap capacity, mcast.c:988), purge_match_heap runs and
its return value replaces `min_pvalue_discarded`. -/
def mcast_save_match (max_nodes : ℕ) (st : HeapSt) (r : MCAST_MATCH) : HeapSt :=
  if clt r.pvalue st.min_pvalue_discarded || r.pvalue.isNone then
    let h := r :: st.heap
    if h.length = max_nodes then
      let p := purge_match_heap h
      ⟨p.1, p.2.1, p.2.2.1 ++ p.2.2.2 ++ st.purged⟩
    else ⟨h, st.min_pvalue_discarded, st.purged⟩
  else st

/-- Run the heap machine over a list of candidate match records. -/
def runHeap (max_nodes : ℕ) (rs : List MCAST_MATCH) : HeapSt :=
  rs.foldl (mcast_save_match max_nodes) initHeapSt

/-- Modelled from the spec (fitevd.c is not in src): an EVD set exposes the
number of fitted GC bins `n` (`n == 0` means "not yet fit"), a p-value
function of (translated score, GC-content) — the query-length argument is
the constant IGNORE_QUERY_LENGTH in mcast.c — a GC-bin lookup, and the
E-value multiplier `N`. -/
structure EVD_SET where
  n : ℕ
  pv : ℚ → ℚ → ℚ
  bin : ℚ → ℤ
  N : ℚ

/-- An EVD set flagged as empty (`evd_set.n = 0`, mcast.c:1515). -/
def emptyEVD : EVD_SET := ⟨0, fun _ _ => 0, fun _ => 0, 0⟩

/-- Re-scoring of one heap record inside calc_init_distr (mcast.c:673-678):
the fitted model's GC bin and p-value are recomputed from the record's
stored score minus the DP threshold and its GC-content. -/
def rescore_match (evd : EVD_SET) (dp_threshold : ℚ) (r : MCAST_MATCH) : MCAST_MATCH :=
  { r with gc_bin := evd.bin r.gc,
           pvalue := some (evd.pv (r.score - dp_threshold) r.gc) }

/-- calc_init_distr (mcast.c:650-688): fit the current score set
(`calc_distr`, in fitevd.c which is not in src, is an abstract parameter);
on success (`evd_set.n > 0`) pop every record off the heap, recompute its
GC bin and p-value against the new fit, and put every record back — at the
multiset level, a map of `rescore_match` over the heap.  Returns the
success flag, the new EVD set and the updated heap. -/
def calc_init_distr (calc_distr : SCORE_SET → EVD_SET) (ss : SCORE_SET)
    (heap : List MCAST_MATCH) (dp_threshold : ℚ) :
    Bool × EVD_SET × List MCAST_MATCH :=
  let evd := calc_distr ss
  if 0 < evd.n then (true, evd, heap.map (rescore_match evd dp_threshold))
  else (false, evd, heap)

/-- Scan state of mcast_read_and_score across extracted matches: score set,
serial counter, current initial EVD set, the `got_init_evd` flag, the heap
state, and (specification bookkeeping) how many times the heap has been
re-scored by calc_init_distr. -/
structure ScanSt where
  ss : SCORE_SET
  serial_no : ℚ
  evd : EVD_SET
  got_init_evd : Bool
  hs : HeapSt
  rescore_count : ℕ

/-- The reservoir phase of one match (mcast.c:847-886): scores not above
LOG_SMALL are not saved — the score set and serial counter are untouched. -/
def scan_phase_reservoir (log_small : ℚ) (st : ScanSt) (ev : MatchEvent) :
    SCORE_SET × ℚ :=
  if log_small < ev.viterbi_score then mcast_record_score st.ss st.serial_no ev
  else (st.ss, st.serial_no)

/-- The initial-distribution phase of one match (mcast.c:893-901): once the
reservoir has filled (`score_set->n >= score_set->max_scores_saved`) and
while `got_init_evd` is still false, calc_init_distr runs.  Returns the new
flag, EVD set, heap and re-score count. -/
def scan_init_distr (calc_distr : SCORE_SET → EVD_SET) (dp_thresh : ℚ)
    (st : ScanSt) (ss1 : SCORE_SET) :
    Bool × EVD_SET × List MCAST_MATCH × ℕ :=
  if st.got_init_evd = false ∧ ss1.max_scores_saved ≤ ss1.n then
    let r := calc_init_distr calc_distr ss1 st.hs.heap dp_thresh
    (r.1, r.2.1, r.2.2, if r.1 then st.rescore_count + 1 else st.rescore_count)
  else (st.got_init_evd, st.evd, st.hs.heap, st.rescore_count)

/-- Processing of one extracted match inside mcast_read_and_score
(mcast.c:836-1007): reservoir update, possible initial fit with heap
re-scoring, p-value assignment (NaN when no EVD fit exists yet,
mcast.c:903-908), construction of the match record (its stored score adds
the DP threshold back, mcast.c:975) and the gated heap insertion with
automatic purge. -/
def mcast_process_match (calc_distr : SCORE_SET → EVD_SET)
    (log_small dp_thresh : ℚ) (max_stored : ℕ) (st : ScanSt) (ev : MatchEvent) :
    ScanSt :=
  let rec1 := scan_phase_reservoir log_small st ev
  let ss1 := rec1.1
  let init := scan_init_distr calc_distr dp_thresh st ss1
  let got1 := init.1
  let evd1 := init.2.1
  let heap1 := init.2.2.1
  let count1 := init.2.2.2
  let pvalue : Pval := if got1 then some (evd1.pv ev.viterbi_score ev.gc) else none
  let gc_bin : ℤ := if got1 then evd1.bin ev.gc else -1
  let r : MCAST_MATCH := ⟨ev.viterbi_score + dp_thresh, ev.gc, gc_bin, pvalue, 0, 0⟩
  let hs1 := mcast_save_match max_stored
    ⟨heap1, st.hs.min_pvalue_discarded, st.hs.purged⟩ r
  ⟨ss1, rec1.2, evd1, got1, hs1, count1⟩

/-- Initial scan state for the real-sequence scan in mcast (mcast.c:
1514-1516, 1629-1650): empty EVD set so `got_init_evd` starts false, score
set and heap of capacity `max_stored` (both set to max_stored_scores). -/
def initScanSt (max_stored : ℕ) : ScanSt :=
  ⟨initScoreSet max_stored, 0, emptyEVD, false, initHeapSt, 0⟩

/-- The match-processing core of mcast_read_and_score as a fold over the
stream of extracted matches. -/
def mcast_read_and_score (calc_distr : SCORE_SET → EVD_SET)
    (log_small dp_thresh : ℚ) (max_stored : ℕ) (evs : List MatchEvent) : ScanSt :=
  evs.foldl (mcast_process_match calc_distr log_small dp_thresh max_stored)
    (initScanSt max_stored)

/-- Ascending p-value comparison used to resort matches in calc_pq_values
(compare_mcast_match_pvalues; mcast-match.c is not in src, ordering
modelled from the spec). -/
def pvalLe (a b : MCAST_MATCH) : Bool := decide (pvalKey a.pvalue ≤ pvalKey b.pvalue)

/-- calc_pq_values (mcast.c:1084-1169): `if (evd_set->n <= 0) return;`
guards everything; otherwise p-values of the sampled scores are computed
and sorted, every match's GC bin, p-value and `evalue = n * pvalue` are
recomputed, matches are resorted by p-value, and q-values (compute_qvalues
lives in qvalue.c, not in src, so it is an abstract parameter taking
`num_scores_seen`, the sorted match p-values and the sampled p-values) are
written back in sorted order. -/
def calc_pq_values (compute_qvalues : ℕ → List ℚ → List ℚ → List ℚ)
    (mcast_matches : List MCAST_MATCH) (evd : EVD_SET) (ss : SCORE_SET)
    (dp_thresh : ℚ) (n : ℕ) : List MCAST_MATCH :=
  if evd.n = 0 then mcast_matches
  else
    let sampled_pvalues :=
      (ss.scores.map (fun sc => evd.pv sc.s sc.gc)).mergeSort (fun a b => decide (a ≤ b))
    let matches1 := mcast_matches.map (fun r =>
      { r with gc_bin := evd.bin r.gc,
               pvalue := some (evd.pv (r.score - dp_thresh) r.gc),
               evalue := (n : ℚ) * evd.pv (r.score - dp_thresh) r.gc })
    let matches2 := matches1.mergeSort pvalLe
    let pvalues := matches2.map (fun r => (pvalKey r.pvalue).unbot' 1)
    let qvalues := compute_qvalues ss.num_scores_seen pvalues sampled_pvalues
    List.zipWith (fun r q => { r with qvalue := q }) matches2 qvalues

/-- stats_available in mcast_print_results (mcast.c:1229): the final EVD
set has at least one fitted bin. -/
def stats_available (evd : EVD_SET) : Bool := decide (0 < evd.n)

/-- Result of the finalization stage. -/
structure FinalizeResult where
  mcast_matches : List MCAST_MATCH
  evd : EVD_SET

/-- The finalization wiring in mcast (mcast.c:1680-1710): when matches
exist, the synthetic-background fit runs (mcast_generate_synth_seq, an
abstract function of the real score set here); if it produced at least one
bin, `evd_set.N` is set to `score_set->num_scores_seen` and calc_pq_values
runs with that `N`. -/
def mcast_finalize (generate_synth : SCORE_SET → EVD_SET)
    (compute_qvalues : ℕ → List ℚ → List ℚ → List ℚ)
    (mcast_matches : List MCAST_MATCH) (evd0 : EVD_SET) (ss : SCORE_SET)
    (dp_thresh : ℚ) : FinalizeResult :=
  if 0 < mcast_matches.length then
    let evd1 := generate_synth ss
    if 0 < evd1.n then
      let evd2 := { evd1 with N := (ss.num_scores_seen : ℚ) }
      ⟨calc_pq_values compute_qvalues mcast_matches evd2 ss dp_thresh ss.num_scores_seen,
       evd2⟩
    else ⟨mcast_matches, evd1⟩
  else ⟨mcast_matches, evd0⟩

/-- A raw match position pair as returned by find_next_match
(get_start_match / get_end_match). -/
structure RawMatch where
  start : ℤ
  stop : ℤ
deriving DecidableEq

/-- The match-extraction loop of mcast_read_and_score (mcast.c:807-834)
over the successive matches produced by find_next_match (dp.c is not in
src; its successive return values are the input stream).  A match starting
inside the trailing overlap region of a non-final window breaks the loop
(deferring it and everything after it to the next window); a match
starting exactly at `start_pos` is skipped with the cursor advanced past
its end; any other match is recorded and the cursor advanced past its end.
Returns (recorded, deferred stream, final cursor). -/
def find_all_matches_loop (is_complete_seq : Bool) (seq_length overlap_size : ℤ) :
    List RawMatch → ℤ → List RawMatch × List RawMatch × ℤ
  | [], start_pos => ([], [], start_pos)
  | m :: rest, start_pos =>
    if is_complete_seq = false ∧ seq_length - overlap_size < m.start then
      ([], m :: rest, start_pos)
    else if m.start = start_pos then
      find_all_matches_loop is_complete_seq seq_length overlap_size rest (m.stop + 1)
    else
      let r := find_all_matches_loop is_complete_seq seq_length overlap_size rest (m.stop + 1)
      (m :: r.1, r.2.1, r.2.2)

/-- Modelled from the spec (the alphabet module is not in src): an alphabet
has a core symbol count (alph_size_core), a count of complementary pairs
(alph_size_pairs) and an identity; alph_equal is structural equality. -/
structure ALPH where
  size_core : ℕ
  size_pairs : ℕ
  name : String
deriving DecidableEq

/-- The standard DNA alphabet: 4 core symbols in 2 complementary pairs. -/
def alph_dna : ALPH := ⟨4, 2, "DNA"⟩

/-- Motif file formats supported by MCAST (mcast.c:53). -/
inductive MOTIF_FORMAT
  | MEME_FORMAT
  | TRANSFAC_FORMAT
deriving DecidableEq

/-- The alphabet outcome of read_motifs (mcast.c:465-535): in MEME format
the motif file's alphabet must equal the DNA alphabet or the program dies
(mcast.c:476-478); in TRANSFAC format the DNA alphabet is used outright
(mcast.c:523). -/
def read_motifs_alph : MOTIF_FORMAT → ALPH → Option ALPH
  | MOTIF_FORMAT.MEME_FORMAT, a => if a = alph_dna then some a else none
  | MOTIF_FORMAT.TRANSFAC_FORMAT, _ => some alph_dna

/-- The alphabet the scan actually uses for a given motif format and motif
file alphabet. -/
def mcast_used_alph : MOTIF_FORMAT → ALPH → ALPH
  | MOTIF_FORMAT.MEME_FORMAT, a => a
  | MOTIF_FORMAT.TRANSFAC_FORMAT, _ => alph_dna

/-- The alphabet suitability check of mcast_generate_synth_seq
(mcast.c:1348-1352): exactly 4 core symbols in exactly 2 complementary
pairs, else the program dies. -/
def synth_alph_ok (a : ALPH) : Bool := decide (a.size_core = 4 ∧ a.size_pairs = 2)

/-- Phases of a run, in program order. -/
inductive PhaseEv
  | motifs_read
  | scan_started
  | synth_started
  | fatal_exit
deriving DecidableEq

/-- The phase trace of a run of main/mcast (mcast.c:1781-1854, 1498-1773):
read_motifs runs first and dies on a non-DNA alphabet; only then does the
real-sequence scan start (mcast_read_and_score, mcast.c:1656); the
synthetic-sequence generation with its alphabet check comes after the scan
(mcast.c:1682). -/
def mcast_pipeline_trace (fmt : MOTIF_FORMAT) (a : ALPH) : List PhaseEv :=
  match read_motifs_alph fmt a with
  | none => [PhaseEv.fatal_exit]
  | some used =>
    [PhaseEv.motifs_read, PhaseEv.scan_started] ++
    (if synth_alph_ok used then [PhaseEv.synth_started] else [PhaseEv.fatal_exit])

/-- Concrete match records used in counterexamples and witnesses (their
p-values are integers so that all comparisons reduce in the kernel; the
heap machinery never requires p-values to lie in [0, 1]). -/
def exMatchA : MCAST_MATCH := ⟨0, 0, 0, some (-1), 0, 0⟩

/-- Concrete match record with p-value -2. -/
def exMatchB : MCAST_MATCH := ⟨0, 0, 0, some (-2), 0, 0⟩

/-- Concrete match record with p-value -3. -/
def exMatchC : MCAST_MATCH := ⟨0, 0, 0, some (-3), 0, 0⟩

/-- A heap of three records with distinct numeric p-values. -/
def exHeap3 : List MCAST_MATCH := [exMatchA, exMatchB, exMatchC]

/-- A heap of two records with distinct numeric p-values. -/
def exHeap2 : List MCAST_MATCH := [exMatchA, exMatchB]

/-- The property the (amended) claim C1 states about purge_match_heap on a
heap whose entries all carry numeric p-values: writing the result as
(retained, m, first-phase victims d1, tie-phase victims d2) — the heap
splits (as a multiset) into victims and retained entries; the first phase
removes exactly `⌊size / 2⌋` entries and they are the weakest (every other
entry's p-value is at most theirs); the tie phase removes entries whose
p-value is `>=` m; and m is the minimum p-value among all victims, with
every retained entry strictly below it. -/
def PurgeAmendedOK (h : List MCAST_MATCH) : Prop :=
  h.Perm (((purge_match_heap h).2.2.1 ++ (purge_match_heap h).2.2.2) ++
    (purge_match_heap h).1) ∧
  (purge_match_heap h).2.2.1.length = h.length / 2 ∧
  (∀ y ∈ (purge_match_heap h).2.2.1, ∀ py : ℚ, y.pvalue = some py →
    ∀ x ∈ (purge_match_heap h).1 ++ (purge_match_heap h).2.2.2,
      ∀ px : ℚ, x.pvalue = some px → px ≤ py) ∧
  (∀ y ∈ (purge_match_heap h).2.2.2, cge y.pvalue (purge_match_heap h).2.1 = true) ∧
  (∃ mx : ℚ, (purge_match_heap h).2.1 = some mx ∧
    (∃ y ∈ (purge_match_heap h).2.2.1 ++ (purge_match_heap h).2.2.2,
      y.pvalue = some mx) ∧
    (∀ y ∈ (purge_match_heap h).2.2.1 ++ (purge_match_heap h).2.2.2,
      ∀ py : ℚ, y.pvalue = some py → mx ≤ py) ∧
    (∀ x ∈ (purge_match_heap h).1, ∀ px : ℚ, x.pvalue = some px → px < mx))

/-- Internal invariant of the heap machine: the threshold never exceeds
1.0; every numeric p-value in the heap is strictly below the threshold;
every numeric p-value ever purged is at least the threshold; a NaN
threshold forces an all-NaN heap; and with capacity at most 1 no purge
ever discards anything. -/
def HeapInv (max_nodes : ℕ) (st : HeapSt) : Prop :=
  (∀ x : ℚ, st.min_pvalue_discarded = some x → x ≤ 1) ∧
  (∀ r ∈ st.heap, ∀ p : ℚ, r.pvalue = some p →
    ∀ x : ℚ, st.min_pvalue_discarded = some x → p < x) ∧
  (∀ r ∈ st.purged, ∀ p : ℚ, r.pvalue = some p →
    ∀ x : ℚ, st.min_pvalue_discarded = some x → x ≤ p) ∧
  (st.min_pvalue_discarded = none → ∀ r ∈ st.heap, r.pvalue = none) ∧
  (max_nodes ≤ 1 → st.purged = [] ∧ st.min_pvalue_discarded = some 1)

/-- The property claim C2 states: after any run of gated insertions with
automatic purges, every purged record's numeric p-value is at least every
retained record's numeric p-value. -/
def HeapDiscardInvariant (st : HeapSt) : Prop :=
  ∀ r1 ∈ st.purged, ∀ r2 ∈ st.heap, ∀ p1 p2 : ℚ,
    r1.pvalue = some p1 → r2.pvalue = some p2 → p2 ≤ p1

/-- Strengthened invariant for runs in which every inserted record has a
numeric p-value and the capacity is at least 2. -/
def HeapInv5 (max_nodes : ℕ) (st : HeapSt) : Prop :=
  HeapInv max_nodes st ∧
  (∀ r ∈ st.heap, r.pvalue.isSome) ∧
  (∃ x : ℚ, st.min_pvalue_discarded = some x) ∧
  st.heap.length < max_nodes

/-- The property claim C5 states: a run over any stream of numeric-p-value
records never leaves more than `max_nodes` records in the heap (in fact
strictly fewer), and the purge threshold after processing more of the
stream is never larger than after a prefix. -/
def HeapRunBoundedMonotone (max_nodes : ℕ) (rs1 rs2 : List MCAST_MATCH) : Prop :=
  (runHeap max_nodes (rs1 ++ rs2)).heap.length < max_nodes ∧
  ∃ x y : ℚ, (runHeap max_nodes rs1).min_pvalue_discarded = some x ∧
    (runHeap max_nodes (rs1 ++ rs2)).min_pvalue_discarded = some y ∧ y ≤ x

/-- Concrete records for the C2/C5 witnesses. -/
def exRecords : List MCAST_MATCH :=
  [⟨0, 0, 0, some (-1), 0, 0⟩, ⟨0, 0, 0, some (-2), 0, 0⟩, ⟨0, 0, 0, some (-3), 0, 0⟩]

/-- Invariant tying the `got_init_evd` flag to the number of heap
re-scorings performed by calc_init_distr during a scan. -/
def ScanOnceInv (st : ScanSt) : Prop :=
  (st.got_init_evd = false → st.rescore_count = 0) ∧
  (st.got_init_evd = true → st.rescore_count = 1)

/-- The run-level property claim C4 states: across a whole scan the heap
is re-scored by a successful provisional fit at most once, and exactly
once iff the scan ends with a provisional EVD model in hand. -/
def ProvisionalFitOnceOK (calc_distr : SCORE_SET → EVD_SET)
    (log_small dp_thresh : ℚ) (max_stored : ℕ) (evs : List MatchEvent) : Prop :=
  (mcast_read_and_score calc_distr log_small dp_thresh max_stored evs).rescore_count ≤ 1 ∧
  ((mcast_read_and_score calc_distr log_small dp_thresh max_stored evs).got_init_evd = true ↔
    (mcast_read_and_score calc_distr log_small dp_thresh max_stored evs).rescore_count = 1)

/-- The property claim C8 states about the finalization stage: the
E-value multiplier is the total number of real scores observed
(`num_scores_seen`), and every finalized match carries
`evalue = num_scores_seen * pvalue` with the p-value recomputed from the
synthetic-background model. -/
def EvalueScalingOK (generate_synth : SCORE_SET → EVD_SET)
    (compute_qvalues : ℕ → List ℚ → List ℚ → List ℚ)
    (mcast_matches : List MCAST_MATCH) (evd0 : EVD_SET) (ss : SCORE_SET)
    (dp_thresh : ℚ) : Prop :=
  (mcast_finalize generate_synth compute_qvalues mcast_matches evd0 ss dp_thresh).evd.N
      = (ss.num_scores_seen : ℚ) ∧
  ∀ r ∈ (mcast_finalize generate_synth compute_qvalues mcast_matches
      evd0 ss dp_thresh).mcast_matches,
    r.pvalue = some ((generate_synth ss).pv (r.score - dp_thresh) r.gc) ∧
    r.evalue = (ss.num_scores_seen : ℚ) * (generate_synth ss).pv (r.score - dp_thresh) r.gc

/-- A concrete synthetic-background fit with one bin, for witnesses. -/
def exSynthGen : SCORE_SET → EVD_SET := fun _ => ⟨1, fun s gc => s + gc, fun _ => 0, 0⟩

/-- A concrete q-value computation, for witnesses. -/
def exComputeQ : ℕ → List ℚ → List ℚ → List ℚ := fun _ pv _ => pv

/-- A concrete score set that has observed 7 scores, for witnesses. -/
def exScoreSet : SCORE_SET := ⟨7, 0, 0, [], 0⟩

/-- A concrete fit function whose result always has one bin, for
witnesses. -/
def exCalcDistrFit : SCORE_SET → EVD_SET := fun _ => ⟨1, fun _ _ => 0, fun _ => 0, 0⟩

/-- A concrete fit function that always fails (zero bins), for
witnesses. -/
def exCalcDistr : SCORE_SET → EVD_SET := fun _ => emptyEVD

/-- A concrete match event whose adjusted score is below LOG_SMALL when
LOG_SMALL is 0, for the C10 witness. -/
def exTinyEvent : MatchEvent := ⟨-5, 0, 0, 0, 0, 0⟩

/-- A concrete in-window match for the C7 counterexample. -/
def exRawM1 : RawMatch := ⟨10, 990⟩

/-- A concrete match that both starts at the scan cursor and lies in the
trailing overlap region, for the C7 counterexample. -/
def exRawM2 : RawMatch := ⟨991, 995⟩

/-- A concrete alphabet with 3 core symbols and 1 complementary pair, for
the C9 witness. -/
def exBadAlph : ALPH := ⟨3, 1, "XYZ"⟩

/-- The mechanism clauses claim C3 states about one reservoir update:
`num_scores_seen` is always incremented; while the reservoir is not full
the sample is appended at slot `n` and `n` incremented; once full the
sample is accepted iff the drawn index is below the capacity, overwriting
that slot with `n` unchanged; and the reservoir size is always
`min(num_scores_seen, capacity)`. -/
def ReservoirMechanismOK (ss : SCORE_SET) (serial_no : ℚ) (ev : MatchEvent) : Prop :=
  ((mcast_record_score ss serial_no ev).1.num_scores_seen
      = ss.num_scores_seen + 1) ∧
  (ss.n < ss.max_scores_saved →
    (mcast_record_score ss serial_no ev).1.n = ss.n + 1 ∧
    (mcast_record_score ss serial_no ev).1.scores
      = ss.scores ++ [score_sample serial_no ev]) ∧
  (¬ ss.n < ss.max_scores_saved →
    (mcast_record_score ss serial_no ev).1.n = ss.n ∧
    (ev.draw < ss.max_scores_saved →
      (mcast_record_score ss serial_no ev).1.scores
        = ss.scores.set ev.draw (score_sample serial_no ev)) ∧
    (¬ ev.draw < ss.max_scores_saved →
      (mcast_record_score ss serial_no ev).1.scores = ss.scores)) ∧
  (ss.scores.length = ss.n ∧ ss.n = min ss.num_scores_seen ss.max_scores_saved →
    (mcast_record_score ss serial_no ev).1.scores.length
        = (mcast_record_score ss serial_no ev).1.n ∧
    (mcast_record_score ss serial_no ev).1.n
        = min (ss.num_scores_seen + 1) ss.max_scores_saved)

/-- The uniformity clause claim C3 states: over all valid draw sequences
of length `N`, the fraction in which stream sample `j` survives in the
final reservoir is exactly `capacity / N` — stated multiplicatively over
the exhaustive list of draw sequences. -/
def ReservoirUniformOK (cap N j : ℕ) : Prop :=
  ((validDraws N).countP (fun d => resHolds cap d j)) * N
    = cap * (validDraws N).length

/-- Shape invariant of a reservoir run: the counters are as expected, the
stored sample values are stream indices below `N`, and no stream index
occupies two slots. -/
def ResShape (cap N : ℕ) (ss : SCORE_SET) : Prop :=
  ss.num_scores_seen = N ∧ ss.max_scores_saved = cap ∧ ss.n = min N cap ∧
  ss.scores.length = min N cap ∧
  (∀ k, (hk : k < ss.scores.length) → ∃ j, j < N ∧ (ss.scores[k]).s = (j : ℚ)) ∧
  (∀ k1 k2, (h1 : k1 < ss.scores.length) → (h2 : k2 < ss.scores.length) →
    (ss.scores[k1]).s = (ss.scores[k2]).s → k1 = k2)

end Mcast

namespace Mcast

theorem pvalKey_eq_bot {p : Pval} : pvalKey p = ⊥ ↔ p = none := by
  cases p <;> simp [pvalKey]

theorem cge_key_le {p m : Pval} (h : cge p m = true) : pvalKey m ≤ pvalKey p := by
  cases p <;> cases m <;> simp_all [cge, pvalKey]

theorem pop_heap_root_none {h : List MCAST_MATCH}
    (hp : pop_heap_root h = none) : h = [] := by
  unfold pop_heap_root at hp
  cases harg : h.argmax matchKey with
  | none => exact List.argmax_eq_none.mp harg
  | some w => rw [harg] at hp; exact absurd hp (by simp)

theorem pop_heap_root_some {h h1 : List MCAST_MATCH} {v : MCAST_MATCH}
    (hp : pop_heap_root h = some (v, h1)) :
    v ∈ h ∧ h1 = h.erase v ∧ ∀ x ∈ h, matchKey x ≤ matchKey v := by
  unfold pop_heap_root at hp
  cases harg : h.argmax matchKey with
  | none => rw [harg] at hp; exact absurd hp (by simp)
  | some w =>
    rw [harg] at hp
    simp only [Option.some.injEq, Prod.mk.injEq] at hp
    obtain ⟨hv, hh⟩ := hp
    subst hv
    refine ⟨List.argmax_mem (Option.mem_def.mpr harg), hh.symm, ?_⟩
    intro x hx
    exact List.le_of_mem_argmax hx (Option.mem_def.mpr harg)

theorem pop_heap_root_perm {h h1 : List MCAST_MATCH} {v : MCAST_MATCH}
    (hp : pop_heap_root h = some (v, h1)) : h.Perm (v :: h1) := by
  obtain ⟨hv, hh, _⟩ := pop_heap_root_some hp
  rw [hh]
  exact List.perm_cons_erase hv

theorem pop_heap_root_max {h h1 : List MCAST_MATCH} {v : MCAST_MATCH}
    (hp : pop_heap_root h = some (v, h1)) :
    ∀ x ∈ h, matchKey x ≤ matchKey v :=
  (pop_heap_root_some hp).2.2

theorem pop_heap_root_length {h h1 : List MCAST_MATCH} {v : MCAST_MATCH}
    (hp : pop_heap_root h = some (v, h1)) : h.length = h1.length + 1 :=
  (pop_heap_root_perm hp).length_eq

theorem pop_heap_root_sub {h h1 : List MCAST_MATCH} {v : MCAST_MATCH}
    (hp : pop_heap_root h = some (v, h1)) : ∀ x ∈ h1, x ∈ h := by
  intro x hx
  exact (pop_heap_root_perm hp).mem_iff.mpr (List.mem_cons_of_mem v hx)

theorem purge_pop_loop_succ_none {k : ℕ} {h : List MCAST_MATCH} {m : Pval}
    (hp : pop_heap_root h = none) : purge_pop_loop (k + 1) h m = (h, m, []) := by
  simp only [purge_pop_loop, hp]

theorem purge_pop_loop_succ_some {k : ℕ} {h h1 : List MCAST_MATCH}
    {m : Pval} {v : MCAST_MATCH} (hp : pop_heap_root h = some (v, h1)) :
    purge_pop_loop (k + 1) h m =
      ((purge_pop_loop k h1 v.pvalue).1, (purge_pop_loop k h1 v.pvalue).2.1,
        v :: (purge_pop_loop k h1 v.pvalue).2.2) := by
  simp only [purge_pop_loop, hp]

theorem purge_pop_loop_spec (k : ℕ) (h : List MCAST_MATCH) (m : Pval) :
    h.Perm ((purge_pop_loop k h m).2.2 ++ (purge_pop_loop k h m).1) ∧
    (∀ x ∈ (purge_pop_loop k h m).1, ∀ y ∈ (purge_pop_loop k h m).2.2,
      matchKey x ≤ matchKey y) ∧
    (∀ y ∈ (purge_pop_loop k h m).2.2,
      pvalKey (purge_pop_loop k h m).2.1 ≤ matchKey y) ∧
    ((purge_pop_loop k h m).2.2 ≠ [] →
      ∃ y ∈ (purge_pop_loop k h m).2.2, (purge_pop_loop k h m).2.1 = y.pvalue) ∧
    ((purge_pop_loop k h m).2.2 = [] → (purge_pop_loop k h m).2.1 = m) ∧
    (purge_pop_loop k h m).2.2.length = min k h.length := by
  induction k generalizing h m with
  | zero => simp [purge_pop_loop]
  | succ k ih =>
    cases hp : pop_heap_root h with
    | none =>
      have hnil : h = [] := pop_heap_root_none hp
      subst hnil
      simp [purge_pop_loop_succ_none hp]
    | some vh =>
      obtain ⟨v, h1⟩ := vh
      have hperm : h.Perm (v :: h1) := pop_heap_root_perm hp
      have hmax : ∀ x ∈ h, matchKey x ≤ matchKey v := pop_heap_root_max hp
      have hsub : ∀ x ∈ h1, x ∈ h := pop_heap_root_sub hp
      have hlen : h.length = h1.length + 1 := pop_heap_root_length hp
      obtain ⟨ih1, ih2, ih3, ih4, ih5, ih6⟩ := ih h1 v.pvalue
      have hsub2 : ∀ x ∈ (purge_pop_loop k h1 v.pvalue).2.2 ++
          (purge_pop_loop k h1 v.pvalue).1, x ∈ h1 :=
        fun x hx => ih1.mem_iff.mpr hx
      rw [purge_pop_loop_succ_some hp]
      refine ⟨?_, ?_, ?_, ?_, ?_, ?_⟩
      · exact hperm.trans (by simpa using ih1.cons v)
      · intro x hx y hy
        rcases List.mem_cons.mp hy with hy | hy
        · subst hy
          exact hmax x (hsub x (hsub2 x (List.mem_append_right _ hx)))
        · exact ih2 x hx y hy
      · refine List.forall_mem_cons.mpr ⟨?_, ih3⟩
        cases hd : (purge_pop_loop k h1 v.pvalue).2.2 with
        | nil =>
          rw [ih5 hd]
          exact le_refl (matchKey v)
        | cons z zs =>
          rcases ih4 (by rw [hd]; simp) with ⟨y', hy', heq⟩
          rw [heq]
          exact hmax y' (hsub y' (hsub2 y' (List.mem_append_left _ hy')))
      · intro _
        cases hd : (purge_pop_loop k h1 v.pvalue).2.2 with
        | nil => exact ⟨v, List.mem_cons_self v _, ih5 hd⟩
        | cons z zs =>
          rcases ih4 (by rw [hd]; simp) with ⟨y', hy', heq⟩
          rw [hd] at hy'
          exact ⟨y', List.mem_cons_of_mem v hy', heq⟩
      · intro hcon
        exact absurd hcon (by simp)
      · simp only [List.length_cons, ih6, hlen]
        omega

theorem purge_tie_fuel_perm (m : Pval) :
    ∀ (fuel : ℕ) (h : List MCAST_MATCH),
      h.Perm ((purge_tie_fuel m fuel h).2 ++ (purge_tie_fuel m fuel h).1) := by
  intro fuel
  induction fuel with
  | zero => intro h; simp [purge_tie_fuel]
  | succ fuel ih =>
    intro h
    cases hp : pop_heap_root h with
    | none => simp [purge_tie_fuel, hp]
    | some vh =>
      obtain ⟨v, h1⟩ := vh
      by_cases hc : cge v.pvalue m
      · simp only [purge_tie_fuel, hp, hc, if_pos]
        exact (pop_heap_root_perm hp).trans (by simpa using (ih h1).cons v)
      · simp [purge_tie_fuel, hp, hc]

theorem purge_tie_fuel_disc (m : Pval) :
    ∀ (fuel : ℕ) (h : List MCAST_MATCH),
      ∀ y ∈ (purge_tie_fuel m fuel h).2, cge y.pvalue m = true := by
  intro fuel
  induction fuel with
  | zero => intro h; simp [purge_tie_fuel]
  | succ fuel ih =>
    intro h
    cases hp : pop_heap_root h with
    | none => simp [purge_tie_fuel, hp]
    | some vh =>
      obtain ⟨v, h1⟩ := vh
      by_cases hc : cge v.pvalue m
      · simp only [purge_tie_fuel, hp, hc, if_pos]
        intro y hy
        rcases List.mem_cons.mp hy with hy | hy
        · subst hy; exact hc
        · exact ih h1 y hy
      · simp [purge_tie_fuel, hp, hc]

theorem purge_tie_fuel_ret (m : Pval) :
    ∀ (fuel : ℕ) (h : List MCAST_MATCH), h.length ≤ fuel →
      ∀ mx : ℚ, m = some mx →
        ∀ x ∈ (purge_tie_fuel m fuel h).1, ∀ px : ℚ, x.pvalue = some px →
          px < mx := by
  intro fuel
  induction fuel with
  | zero =>
    intro h hlen mx hm x hx
    have : h = [] := List.length_eq_zero.mp (Nat.le_zero.mp hlen)
    subst this
    simp [purge_tie_fuel] at hx
  | succ fuel ih =>
    intro h hlen mx hm x hx px hpx
    cases hp : pop_heap_root h with
    | none =>
      have : h = [] := pop_heap_root_none hp
      subst this
      simp [purge_tie_fuel, hp] at hx
    | some vh =>
      obtain ⟨v, h1⟩ := vh
      by_cases hc : cge v.pvalue m
      · rw [purge_tie_fuel, hp] at hx
        simp only [hc, if_pos] at hx
        have hlen1 : h1.length ≤ fuel := by
          have := pop_heap_root_length hp
          omega
        exact ih h1 hlen1 mx hm x hx px hpx
      · simp only [purge_tie_fuel, hp] at hx
        rw [if_neg hc] at hx
        have hmem : x ∈ h := hx
        have hkey : matchKey x ≤ matchKey v := pop_heap_root_max hp x hmem
        subst hm
        cases hv : v.pvalue with
        | none =>
          rw [show matchKey v = ⊥ from by simp [matchKey, hv, pvalKey]] at hkey
          have : matchKey x = ⊥ := le_bot_iff.mp hkey
          rw [show matchKey x = (px : WithBot ℚ) from by
            simp [matchKey, hpx, pvalKey]] at this
          exact absurd this (by simp)
        | some pv =>
          have hlt : pv < mx := by
            simp [cge, hv] at hc
            exact hc
          have : (px : WithBot ℚ) ≤ (pv : WithBot ℚ) := by
            rw [show matchKey x = (px : WithBot ℚ) from by
                  simp [matchKey, hpx, pvalKey],
                show matchKey v = (pv : WithBot ℚ) from by
                  simp [matchKey, hv, pvalKey]] at hkey
            exact hkey
          exact lt_of_le_of_lt (WithBot.coe_le_coe.mp this) hlt

theorem purge_match_heap_spec (h : List MCAST_MATCH) :
    h.Perm (((purge_match_heap h).2.2.1 ++ (purge_match_heap h).2.2.2) ++
      (purge_match_heap h).1) ∧
    (purge_match_heap h).2.2.1.length = h.length / 2 ∧
    (∀ y ∈ (purge_match_heap h).2.2.1 ++ (purge_match_heap h).2.2.2,
      pvalKey (purge_match_heap h).2.1 ≤ matchKey y) ∧
    ((purge_match_heap h).2.2.1 ≠ [] →
      ∃ y ∈ (purge_match_heap h).2.2.1, (purge_match_heap h).2.1 = y.pvalue) ∧
    ((purge_match_heap h).2.2.1 = [] → (purge_match_heap h).2.1 = some 1) ∧
    (∀ mx : ℚ, (purge_match_heap h).2.1 = some mx →
      ∀ x ∈ (purge_match_heap h).1, ∀ px : ℚ, x.pvalue = some px → px < mx) ∧
    (∀ y ∈ (purge_match_heap h).2.2.1,
      ∀ x ∈ (purge_match_heap h).1 ++ (purge_match_heap h).2.2.2,
        matchKey x ≤ matchKey y) ∧
    (∀ y ∈ (purge_match_heap h).2.2.2,
      cge y.pvalue (purge_match_heap h).2.1 = true) := by
  obtain ⟨p1, p2, p3, p4, p5, p6⟩ :=
    purge_pop_loop_spec (h.length / 2) h (some 1)
  have t1 := purge_tie_fuel_perm (purge_pop_loop (h.length / 2) h (some 1)).2.1
    (purge_pop_loop (h.length / 2) h (some 1)).1.length
    (purge_pop_loop (h.length / 2) h (some 1)).1
  have t2 := purge_tie_fuel_disc (purge_pop_loop (h.length / 2) h (some 1)).2.1
    (purge_pop_loop (h.length / 2) h (some 1)).1.length
    (purge_pop_loop (h.length / 2) h (some 1)).1
  have t3 := purge_tie_fuel_ret (purge_pop_loop (h.length / 2) h (some 1)).2.1
    (purge_pop_loop (h.length / 2) h (some 1)).1.length
    (purge_pop_loop (h.length / 2) h (some 1)).1 (le_refl _)
  simp only [purge_match_heap, purge_tie_loop]
  refine ⟨?_, ?_, ?_, ?_, ?_, ?_, ?_, ?_⟩
  · refine p1.trans ?_
    refine (List.Perm.append_left _ t1).trans ?_
    rw [List.append_assoc]
  · rw [p6]
    exact Nat.min_eq_left (Nat.div_le_self _ _)
  · intro y hy
    rcases List.mem_append.mp hy with hy | hy
    · exact p3 y hy
    · exact cge_key_le (t2 y hy)
  · exact fun hne => p4 hne
  · exact fun hnil => p5 hnil
  · intro mx hmx x hx px hpx
    exact t3 mx hmx x hx px hpx
  · intro y hy x hx
    have hx1 : x ∈ (purge_pop_loop (h.length / 2) h (some 1)).1 := by
      rcases List.mem_append.mp hx with hx | hx
      · exact t1.mem_iff.mpr (List.mem_append_right _ hx)
      · exact t1.mem_iff.mpr (List.mem_append_left _ hx)
    exact p2 x hx1 y hy
  · exact t2

/-- C1, counterexample: on a heap of size 3 whose entries carry distinct
numeric p-values (1/2, 1/4, 1/8), purge_match_heap discards exactly one
entry — `⌊3/2⌋ = 1` — not the `⌈3/2⌉ = 2` entries the claim requires it to
remove in its first phase. -/
theorem C1_counterexample :
    exHeap3.length = 3 ∧
    (purge_match_heap exHeap3).2.2.1.length +
      (purge_match_heap exHeap3).2.2.2.length = 1 ∧
    ¬ 2 ≤ (purge_match_heap exHeap3).2.2.1.length +
      (purge_match_heap exHeap3).2.2.2.length := by
  refine ⟨rfl, ?_, ?_⟩ <;> decide

/-- C1 (amended: the first phase removes `⌊size/2⌋` entries, C integer
division, rather than `⌈size/2⌉`): for every heap of size at least 2 all
of whose entries have numeric p-values, purge_match_heap first removes
exactly the weakest `⌊size/2⌋` entries, then keeps removing the new root
while its p-value is `>=` the minimum p-value discarded so far, and
returns the minimum p-value among all discarded entries, every retained
entry being strictly below it. -/
theorem C1_purge_match_heap_amended (h : List MCAST_MATCH)
    (hlen : 2 ≤ h.length) (hnum : ∀ x ∈ h, x.pvalue.isSome) :
    PurgeAmendedOK h := by
  obtain ⟨g1, g2, g3, g4, g5, g6, g7, g8⟩ := purge_match_heap_spec h
  have hsub : ∀ x ∈ ((purge_match_heap h).2.2.1 ++ (purge_match_heap h).2.2.2) ++
      (purge_match_heap h).1, x ∈ h := fun x hx => g1.mem_iff.mpr hx
  refine ⟨g1, g2, ?_, g8, ?_⟩
  · intro y hy py hpy x hx px hpx
    have hkey := g7 y hy x hx
    rw [show matchKey x = (px : WithBot ℚ) from by simp [matchKey, hpx, pvalKey],
        show matchKey y = (py : WithBot ℚ) from by simp [matchKey, hpy, pvalKey]]
      at hkey
    exact WithBot.coe_le_coe.mp hkey
  · have hd1ne : (purge_match_heap h).2.2.1 ≠ [] := by
      intro hcon
      have := g2
      rw [hcon] at this
      simp at this
      omega
    obtain ⟨y, hy, hmy⟩ := g4 hd1ne
    have hynum : y.pvalue.isSome :=
      hnum y (hsub y (List.mem_append_left _ (List.mem_append_left _ hy)))
    obtain ⟨mx, hmx⟩ := Option.isSome_iff_exists.mp hynum
    refine ⟨mx, by rw [hmy, hmx], ⟨y, List.mem_append_left _ hy, hmx⟩, ?_, ?_⟩
    · intro z hz pz hpz
      have hkey := g3 z hz
      rw [hmy, hmx] at hkey
      rw [show pvalKey (some mx) = (mx : WithBot ℚ) from rfl,
          show matchKey z = (pz : WithBot ℚ) from by simp [matchKey, hpz, pvalKey]]
        at hkey
      exact WithBot.coe_le_coe.mp hkey
    · intro x hx px hpx
      exact g6 mx (by rw [hmy, hmx]) x hx px hpx

/-- Witness for C1: the amended purge property at the concrete two-entry
heap. -/
theorem C1_purge_match_heap_amended_witness :
    (2 ≤ exHeap2.length ∧ ∀ x ∈ exHeap2, x.pvalue.isSome) ∧ PurgeAmendedOK exHeap2 :=
  ⟨⟨by decide, by decide⟩,
    C1_purge_match_heap_amended exHeap2 (by decide) (by decide)⟩

end Mcast

namespace Mcast

theorem matchKey_coe {x : MCAST_MATCH} {px : ℚ} (h : x.pvalue = some px) :
    matchKey x = (px : WithBot ℚ) := by
  simp [matchKey, h, pvalKey]

theorem matchKey_bot {x : MCAST_MATCH} (h : matchKey x = ⊥) : x.pvalue = none := by
  cases hx : x.pvalue with
  | none => rfl
  | some px => rw [matchKey_coe hx] at h; exact absurd h (by simp)

theorem clt_some_true {m : Pval} {q : ℚ} (h : clt (some q) m = true) :
    ∃ x : ℚ, m = some x ∧ q < x := by
  cases m with
  | none => simp [clt] at h
  | some x =>
    refine ⟨x, rfl, ?_⟩
    simpa [clt] using h

theorem clt_none_right {p : Pval} : clt p none = false := by
  cases p <;> rfl

theorem mcast_save_match_gate_false {max_nodes : ℕ} {st : HeapSt} {r : MCAST_MATCH}
    (h : (clt r.pvalue st.min_pvalue_discarded || r.pvalue.isNone) = false) :
    mcast_save_match max_nodes st r = st := by
  simp [mcast_save_match, h]

theorem mcast_save_match_push {max_nodes : ℕ} {st : HeapSt} {r : MCAST_MATCH}
    (hg : (clt r.pvalue st.min_pvalue_discarded || r.pvalue.isNone) = true)
    (hl : ¬(r :: st.heap).length = max_nodes) :
    mcast_save_match max_nodes st r =
      ⟨r :: st.heap, st.min_pvalue_discarded, st.purged⟩ := by
  simp only [mcast_save_match]
  rw [if_pos hg, if_neg hl]

theorem mcast_save_match_purge {max_nodes : ℕ} {st : HeapSt} {r : MCAST_MATCH}
    (hg : (clt r.pvalue st.min_pvalue_discarded || r.pvalue.isNone) = true)
    (hl : (r :: st.heap).length = max_nodes) :
    mcast_save_match max_nodes st r =
      ⟨(purge_match_heap (r :: st.heap)).1,
       (purge_match_heap (r :: st.heap)).2.1,
       (purge_match_heap (r :: st.heap)).2.2.1 ++
         (purge_match_heap (r :: st.heap)).2.2.2 ++ st.purged⟩ := by
  simp only [mcast_save_match]
  rw [if_pos hg, if_pos hl]

theorem pvalKey_some (q : ℚ) : pvalKey (some q) = (q : WithBot ℚ) := rfl

theorem heapInv_step {max_nodes : ℕ} {st : HeapSt} (r : MCAST_MATCH)
    (hinv : HeapInv max_nodes st) :
    HeapInv max_nodes (mcast_save_match max_nodes st r) := by
  obtain ⟨hA, hB, hC, hD, hE⟩ := hinv
  cases hg : (clt r.pvalue st.min_pvalue_discarded || r.pvalue.isNone) with
  | false =>
    rw [mcast_save_match_gate_false hg]
    exact ⟨hA, hB, hC, hD, hE⟩
  | true =>
    have hrB : ∀ p : ℚ, r.pvalue = some p → ∀ x : ℚ,
        st.min_pvalue_discarded = some x → p < x := by
      intro p hp x hx
      rcases Bool.or_eq_true_iff.mp hg with hclt | hnone
      · rw [hp] at hclt
        obtain ⟨x', hx', hlt⟩ := clt_some_true hclt
        rw [hx] at hx'
        injection hx' with hxx
        rw [hxx]
        exact hlt
      · rw [Option.isNone_iff_eq_none] at hnone
        rw [hnone] at hp
        simp at hp
    have hrD : st.min_pvalue_discarded = none → r.pvalue = none := by
      intro hmn
      rcases Bool.or_eq_true_iff.mp hg with hclt | hnone
      · rw [hmn, clt_none_right] at hclt
        simp at hclt
      · exact Option.isNone_iff_eq_none.mp hnone
    have hHB : ∀ rr ∈ r :: st.heap, ∀ p : ℚ, rr.pvalue = some p →
        ∀ x : ℚ, st.min_pvalue_discarded = some x → p < x :=
      List.forall_mem_cons.mpr ⟨hrB, hB⟩
    have hHD : st.min_pvalue_discarded = none →
        ∀ rr ∈ r :: st.heap, rr.pvalue = none :=
      fun hmn => List.forall_mem_cons.mpr ⟨hrD hmn, hD hmn⟩
    by_cases hl : (r :: st.heap).length = max_nodes
    · rw [mcast_save_match_purge hg hl]
      obtain ⟨g1, g2, g3, g4, g5, g6, g7, g8⟩ := purge_match_heap_spec (r :: st.heap)
      have hsub : ∀ z ∈ ((purge_match_heap (r :: st.heap)).2.2.1 ++
          (purge_match_heap (r :: st.heap)).2.2.2) ++
          (purge_match_heap (r :: st.heap)).1, z ∈ r :: st.heap :=
        fun z hz => g1.mem_iff.mpr hz
      have hlc : (r :: st.heap).length = st.heap.length + 1 := List.length_cons r _
      cases hm : (purge_match_heap (r :: st.heap)).2.1 with
      | none =>
        have hd1ne : (purge_match_heap (r :: st.heap)).2.2.1 ≠ [] := by
          intro hcon
          rw [g5 hcon] at hm
          simp at hm
        obtain ⟨y, hy, hmy⟩ := g4 hd1ne
        have hyn : y.pvalue = none := by rw [hm] at hmy; exact hmy.symm
        have hkeyy : matchKey y = ⊥ := by simp [matchKey, hyn, pvalKey]
        refine ⟨?_, ?_, ?_, ?_, ?_⟩
        · intro x hx; simp at hx
        · intro rr _ p _ x hx; simp at hx
        · intro rr _ p _ x hx; simp at hx
        · intro _ rr hrr
          have := g7 y hy rr (List.mem_append_left _ hrr)
          rw [hkeyy] at this
          exact matchKey_bot (le_bot_iff.mp this)
        · intro hmaxle
          exfalso
          apply hd1ne
          have hg2 := g2
          have hlone : (r :: st.heap).length = 1 := by omega
          rw [hlone] at hg2
          exact List.length_eq_zero.mp (by omega)
      | some mx =>
        by_cases hd1 : (purge_match_heap (r :: st.heap)).2.2.1 = []
        · -- first phase empty: the capacity is 1 and nothing is discarded
          have hm1 : mx = 1 := by
            have hthis := g5 hd1
            rw [hm] at hthis
            exact Option.some.inj hthis
          have hlone : (r :: st.heap).length ≤ 1 := by
            have hg2 := g2
            rw [hd1] at hg2
            simp only [List.length_nil] at hg2
            omega
          have hmaxle : max_nodes ≤ 1 := by omega
          obtain ⟨hpE, hmE⟩ := hE hmaxle
          have hheapnil : st.heap = [] := List.length_eq_zero.mp (by omega)
          have hd2 : (purge_match_heap (r :: st.heap)).2.2.2 = [] := by
            rw [List.eq_nil_iff_forall_not_mem]
            intro z hz
            have hcge := g8 z hz
            rw [hm] at hcge
            have hzh : z ∈ r :: st.heap :=
              hsub z (List.mem_append_left _ (List.mem_append_right _ hz))
            rw [hheapnil] at hzh
            simp at hzh
            subst hzh
            cases hzp : z.pvalue with
            | none => rw [hzp] at hcge; simp [cge] at hcge
            | some pz =>
              rw [hzp] at hcge
              simp [cge] at hcge
              have hzB := hrB pz hzp 1 hmE
              rw [hm1] at hcge
              linarith
          refine ⟨?_, ?_, ?_, ?_, ?_⟩
          · intro x hx
            injection hx with hmm
            rw [← hmm, hm1]
          · intro rr hrr p hp x hx
            injection hx with hmm
            rw [← hmm]
            exact g6 mx hm rr hrr p hp
          · intro rr hrr p hp x hx
            rw [hd1, hd2, hpE] at hrr
            simp at hrr
          · intro hcon; simp at hcon
          · intro _
            constructor
            · rw [hd1, hd2, hpE]; rfl
            · rw [hm1]
        · -- first phase nonempty: the new threshold is a popped p-value
          obtain ⟨y, hy, hmy⟩ := g4 hd1
          have hymx : y.pvalue = some mx := by rw [hm] at hmy; exact hmy.symm
          have hyh : y ∈ r :: st.heap :=
            hsub y (List.mem_append_left _ (List.mem_append_left _ hy))
          have hmold : ∃ x0 : ℚ, st.min_pvalue_discarded = some x0 := by
            cases hmo : st.min_pvalue_discarded with
            | none =>
              have hcon := hHD hmo y hyh
              rw [hcon] at hymx
              simp at hymx
            | some x0 => exact ⟨x0, rfl⟩
          obtain ⟨x0, hx0⟩ := hmold
          have hmxlt : mx < x0 := hHB y hyh mx hymx x0 hx0
          have hx01 : x0 ≤ 1 := hA x0 hx0
          refine ⟨?_, ?_, ?_, ?_, ?_⟩
          · intro x hx
            injection hx with hmm
            rw [← hmm]
            linarith
          · intro rr hrr p hp x hx
            injection hx with hmm
            rw [← hmm]
            exact g6 mx hm rr hrr p hp
          · intro rr hrr p hp x hx
            injection hx with hmm
            rw [← hmm]
            rcases List.mem_append.mp hrr with hrr | hrr
            · have hkey := g3 rr hrr
              rw [hm, pvalKey_some, matchKey_coe hp] at hkey
              exact WithBot.coe_le_coe.mp hkey
            · have hold := hC rr hrr p hp x0 hx0
              linarith
          · intro hcon; simp at hcon
          · intro hmaxle
            exfalso
            apply hd1
            have hg2 := g2
            have hlone : (r :: st.heap).length = 1 := by omega
            rw [hlone] at hg2
            exact List.length_eq_zero.mp (by omega)
    · rw [mcast_save_match_push hg hl]
      exact ⟨hA, hHB, hC, hHD, hE⟩

theorem heapInv_init (max_nodes : ℕ) : HeapInv max_nodes initHeapSt := by
  refine ⟨?_, ?_, ?_, ?_, ?_⟩
  · intro x hx
    injection hx with h'
    rw [← h']
  · intro rr hrr; simp [initHeapSt] at hrr
  · intro rr hrr; simp [initHeapSt] at hrr
  · intro hcon; simp [initHeapSt] at hcon
  · intro _; exact ⟨rfl, rfl⟩

theorem heapInv_run (max_nodes : ℕ) (rs : List MCAST_MATCH) :
    HeapInv max_nodes (runHeap max_nodes rs) := by
  have hfold : ∀ (evs : List MCAST_MATCH) (st : HeapSt), HeapInv max_nodes st →
      HeapInv max_nodes (evs.foldl (mcast_save_match max_nodes) st) := by
    intro evs
    induction evs with
    | nil => intro st h; exact h
    | cons e es ih => intro st h; exact ih _ (heapInv_step e h)
  exact hfold rs initHeapSt (heapInv_init max_nodes)

/-- C2: after any sequence of gated heap insertions with their automatic
purges, every purged record's numeric p-value is at least every retained
record's numeric p-value (records whose p-value is NaN carry no numeric
value to compare and are exactly the records inserted before any EVD fit
existed). -/
theorem C2_heap_invariant (max_nodes : ℕ) (rs : List MCAST_MATCH) :
    HeapDiscardInvariant (runHeap max_nodes rs) := by
  obtain ⟨hA, hB, hC, hD, hE⟩ := heapInv_run max_nodes rs
  intro r1 h1 r2 h2 p1 p2 hp1 hp2
  cases hmold : (runHeap max_nodes rs).min_pvalue_discarded with
  | none =>
    rw [hD hmold r2 h2] at hp2
    simp at hp2
  | some x => exact le_trans (le_of_lt (hB r2 h2 p2 hp2 x hmold)) (hC r1 h1 p1 hp1 x hmold)

/-- Witness for C2: the discard invariant at a concrete run. -/
theorem C2_heap_invariant_witness : HeapDiscardInvariant (runHeap 2 exRecords) :=
  C2_heap_invariant 2 exRecords

end Mcast

namespace Mcast

theorem heapInv5_step {max_nodes : ℕ} {st : HeapSt} {r : MCAST_MATCH}
    (hmax : 2 ≤ max_nodes) (hr : r.pvalue.isSome) (hinv : HeapInv5 max_nodes st) :
    HeapInv5 max_nodes (mcast_save_match max_nodes st r) ∧
    (∀ x y : ℚ, st.min_pvalue_discarded = some x →
      (mcast_save_match max_nodes st r).min_pvalue_discarded = some y → y ≤ x) := by
  obtain ⟨hI, hSome, ⟨x0, hx0⟩, hLen⟩ := hinv
  have hInew : HeapInv max_nodes (mcast_save_match max_nodes st r) := heapInv_step r hI
  cases hg : (clt r.pvalue st.min_pvalue_discarded || r.pvalue.isNone) with
  | false =>
    rw [mcast_save_match_gate_false hg] at hInew ⊢
    refine ⟨⟨hInew, hSome, ⟨x0, hx0⟩, hLen⟩, ?_⟩
    intro x y hx hy
    rw [hx] at hy
    exact le_of_eq (Option.some.inj hy).symm
  | true =>
    have hrSome : ∀ z ∈ r :: st.heap, z.pvalue.isSome :=
      List.forall_mem_cons.mpr ⟨hr, hSome⟩
    by_cases hl : (r :: st.heap).length = max_nodes
    · rw [mcast_save_match_purge hg hl] at hInew ⊢
      obtain ⟨g1, g2, g3, g4, g5, g6, g7, g8⟩ := purge_match_heap_spec (r :: st.heap)
      have hsub : ∀ z ∈ ((purge_match_heap (r :: st.heap)).2.2.1 ++
          (purge_match_heap (r :: st.heap)).2.2.2) ++
          (purge_match_heap (r :: st.heap)).1, z ∈ r :: st.heap :=
        fun z hz => g1.mem_iff.mpr hz
      have hlc : (r :: st.heap).length = st.heap.length + 1 := List.length_cons r _
      have hd1ne : (purge_match_heap (r :: st.heap)).2.2.1 ≠ [] := by
        intro hcon
        have hg2 := g2
        rw [hcon] at hg2
        simp only [List.length_nil] at hg2
        omega
      obtain ⟨y, hy, hmy⟩ := g4 hd1ne
      have hyh : y ∈ r :: st.heap :=
        hsub y (List.mem_append_left _ (List.mem_append_left _ hy))
      obtain ⟨my, hmy2⟩ := Option.isSome_iff_exists.mp (hrSome y hyh)
      have hm : (purge_match_heap (r :: st.heap)).2.1 = some my := by
        rw [hmy, hmy2]
      have hmylt : my < x0 := by
        rcases List.mem_cons.mp hyh with hyr | hyheap
        · rcases Bool.or_eq_true_iff.mp hg with hclt | hnone
          · rw [hyr] at hmy2
            rw [hmy2] at hclt
            obtain ⟨x', hx', hlt⟩ := clt_some_true hclt
            rw [hx0] at hx'
            rw [← Option.some.inj hx'] at hlt
            exact hlt
          · rw [Option.isNone_iff_eq_none] at hnone
            rw [hyr, hnone] at hmy2
            simp at hmy2
        · exact hI.2.1 y hyheap my hmy2 x0 hx0
      have hretlen : (purge_match_heap (r :: st.heap)).1.length < max_nodes := by
        have hpl := g1.length_eq
        have hd1l := g2
        have hd1pos : 1 ≤ (purge_match_heap (r :: st.heap)).2.2.1.length := by
          cases hcon : (purge_match_heap (r :: st.heap)).2.2.1 with
          | nil => exact absurd hcon hd1ne
          | cons a as => simp
        simp only [List.length_append] at hpl
        omega
      refine ⟨⟨hInew, ?_, ⟨my, hm⟩, hretlen⟩, ?_⟩
      · intro z hz
        exact hrSome z (hsub z (List.mem_append_right _ hz))
      · intro x yy hx hyy
        rw [hm] at hyy
        rw [hx0] at hx
        rw [← Option.some.inj hyy, ← Option.some.inj hx]
        exact le_of_lt hmylt
    · rw [mcast_save_match_push hg hl] at hInew ⊢
      refine ⟨⟨hInew, hrSome, ⟨x0, hx0⟩, ?_⟩, ?_⟩
      · have hlc : (r :: st.heap).length = st.heap.length + 1 := List.length_cons r _
        show (r :: st.heap).length < max_nodes
        omega
      · intro x y hx hy
        rw [hx] at hy
        exact le_of_eq (Option.some.inj hy).symm

theorem heapInv5_init (max_nodes : ℕ) (hmax : 2 ≤ max_nodes) :
    HeapInv5 max_nodes initHeapSt := by
  refine ⟨heapInv_init max_nodes, ?_, ⟨1, rfl⟩, ?_⟩
  · intro z hz; simp [initHeapSt] at hz
  · simp only [initHeapSt, List.length_nil]
    omega

theorem heapInv5_fold (max_nodes : ℕ) (hmax : 2 ≤ max_nodes) :
    ∀ (evs : List MCAST_MATCH) (st : HeapSt), (∀ r ∈ evs, r.pvalue.isSome) →
      HeapInv5 max_nodes st →
      HeapInv5 max_nodes (evs.foldl (mcast_save_match max_nodes) st) ∧
      (∀ x y : ℚ, st.min_pvalue_discarded = some x →
        (evs.foldl (mcast_save_match max_nodes) st).min_pvalue_discarded = some y →
          y ≤ x) := by
  intro evs
  induction evs with
  | nil =>
    intro st _ h
    refine ⟨h, ?_⟩
    intro x y hx hy
    simp only [List.foldl_nil] at hy
    rw [hx] at hy
    exact le_of_eq (Option.some.inj hy).symm
  | cons e es ih =>
    intro st hnum h
    obtain ⟨h1, hmono1⟩ := heapInv5_step hmax (hnum e (List.mem_cons_self e es)) h
    obtain ⟨h2, hmono2⟩ := ih (mcast_save_match max_nodes st e)
      (fun rr hrr => hnum rr (List.mem_cons_of_mem e hrr)) h1
    refine ⟨h2, ?_⟩
    intro x y hx hy
    obtain ⟨z, hz⟩ := h1.2.2.1
    exact le_trans (hmono2 z y hz hy) (hmono1 x z hx hz)

/-- C5 counterexample: at capacity `max_nodes = 1` the claimed bound fails.
The purge triggered by the first insertion deletes `1 / 2 = 0` entries and
its tie loop cannot fire (the insertion gate keeps the root's p-value below
the initial threshold 1.0), so the heap stays at size 1; the second
insertion makes the heap size `2 ≠ 1`, the equality purge trigger
(mcast.c:988) is stepped over, and the heap is left holding 2 > 1
records. -/
theorem C5_counterexample : ¬ HeapRunBoundedMonotone 1 [exMatchA] [exMatchB] := by
  intro h
  have hlen : (runHeap 1 ([exMatchA] ++ [exMatchB])).heap.length = 2 := by decide
  have hb := h.1
  rw [hlen] at hb
  omega

/-- C5 (amended): with capacity at least 2 and a stream of records carrying
numeric p-values, the heap after a run always holds strictly fewer than
`max_nodes` records (so never more than `max_nodes`), and the
`min_pvalue_discarded` threshold after processing more of the stream is
never larger than after any prefix — purges can only tighten it.  The
capacity-1 case of the original claim is refuted by `C5_counterexample`:
there the equality purge trigger of mcast.c:988 is stepped over and the
heap exceeds the capacity. -/
theorem C5_bounded_monotone_amended (max_nodes : ℕ) (rs1 rs2 : List MCAST_MATCH)
    (hmax : 2 ≤ max_nodes) (hnum : ∀ r ∈ rs1 ++ rs2, r.pvalue.isSome) :
    HeapRunBoundedMonotone max_nodes rs1 rs2 := by
  have hnum1 : ∀ r ∈ rs1, r.pvalue.isSome :=
    fun r hr => hnum r (List.mem_append_left _ hr)
  have hnum2 : ∀ r ∈ rs2, r.pvalue.isSome :=
    fun r hr => hnum r (List.mem_append_right _ hr)
  obtain ⟨hI1, _⟩ := heapInv5_fold max_nodes hmax rs1 initHeapSt hnum1
    (heapInv5_init _ hmax)
  obtain ⟨hI2, hmono⟩ := heapInv5_fold max_nodes hmax rs2
    (rs1.foldl (mcast_save_match max_nodes) initHeapSt) hnum2 hI1
  have hruneq : runHeap max_nodes (rs1 ++ rs2) =
      rs2.foldl (mcast_save_match max_nodes)
        (rs1.foldl (mcast_save_match max_nodes) initHeapSt) := by
    simp [runHeap, List.foldl_append]
  obtain ⟨x, hx⟩ := hI1.2.2.1
  obtain ⟨y, hy⟩ := hI2.2.2.1
  refine ⟨?_, x, y, hx, ?_, ?_⟩
  · rw [hruneq]; exact hI2.2.2.2
  · rw [hruneq]; exact hy
  · exact hmono x y hx hy

/-- Witness for C5: the bounded-heap and monotone-threshold property at a
concrete capacity-2 run. -/
theorem C5_bounded_monotone_amended_witness :
    (2 ≤ 2 ∧ ∀ r ∈ exRecords ++ ([] : List MCAST_MATCH), r.pvalue.isSome) ∧
    HeapRunBoundedMonotone 2 exRecords [] :=
  ⟨⟨by decide, by decide⟩,
    C5_bounded_monotone_amended 2 exRecords [] (by decide) (by decide)⟩

end Mcast

namespace Mcast

/-- C6: whenever the final EVD set has `n = 0`, calc_pq_values returns
the matches entirely unchanged — no p-, E- or q-value is computed or
assigned — and the results are reported with `stats_available` false. -/
theorem C6_degenerate_stats_gate (compute_qvalues : ℕ → List ℚ → List ℚ → List ℚ)
    (mcast_matches : List MCAST_MATCH) (evd : EVD_SET) (ss : SCORE_SET)
    (dp_thresh : ℚ) (n : ℕ) (hn : evd.n = 0) :
    calc_pq_values compute_qvalues mcast_matches evd ss dp_thresh n = mcast_matches ∧
    stats_available evd = false := by
  constructor
  · unfold calc_pq_values
    rw [if_pos hn]
  · simp [stats_available, hn]

/-- Witness for C6: the degenerate-statistics gate at a concrete empty
EVD set. -/
theorem C6_degenerate_stats_gate_witness :
    emptyEVD.n = 0 ∧
    (calc_pq_values exComputeQ [exMatchA] emptyEVD (initScoreSet 0) 0 0 = [exMatchA] ∧
      stats_available emptyEVD = false) :=
  ⟨rfl, C6_degenerate_stats_gate exComputeQ [exMatchA] emptyEVD (initScoreSet 0) 0 0 rfl⟩

/-- C9: if the alphabet the scan uses does not have exactly 4 core
symbols in exactly 2 complementary pairs, the run dies during motif
reading — the DNA-alphabet check in read_motifs — so the fatal exit
happens before any real sequence is scanned. -/
theorem C9_alphabet_check (fmt : MOTIF_FORMAT) (a : ALPH)
    (hbad : ¬((mcast_used_alph fmt a).size_core = 4 ∧
      (mcast_used_alph fmt a).size_pairs = 2)) :
    mcast_pipeline_trace fmt a = [PhaseEv.fatal_exit] ∧
    PhaseEv.scan_started ∉ mcast_pipeline_trace fmt a := by
  cases fmt with
  | TRANSFAC_FORMAT =>
    exact absurd ⟨rfl, rfl⟩ hbad
  | MEME_FORMAT =>
    have hne : a ≠ alph_dna := by
      intro hcon
      apply hbad
      rw [show mcast_used_alph MOTIF_FORMAT.MEME_FORMAT a = a from rfl, hcon]
      exact ⟨rfl, rfl⟩
    have htrace : mcast_pipeline_trace MOTIF_FORMAT.MEME_FORMAT a
        = [PhaseEv.fatal_exit] := by
      have hnone : (if a = alph_dna then some a else none) = (none : Option ALPH) :=
        if_neg hne
      simp only [mcast_pipeline_trace, read_motifs_alph, hnone]
    refine ⟨htrace, ?_⟩
    rw [htrace]
    simp

/-- Witness for C9: the pipeline dies before scanning on a concrete
alphabet with 3 core symbols and 1 pair. -/
theorem C9_alphabet_check_witness :
    (¬((mcast_used_alph MOTIF_FORMAT.MEME_FORMAT exBadAlph).size_core = 4 ∧
      (mcast_used_alph MOTIF_FORMAT.MEME_FORMAT exBadAlph).size_pairs = 2)) ∧
    (mcast_pipeline_trace MOTIF_FORMAT.MEME_FORMAT exBadAlph = [PhaseEv.fatal_exit] ∧
      PhaseEv.scan_started ∉ mcast_pipeline_trace MOTIF_FORMAT.MEME_FORMAT exBadAlph) :=
  ⟨by decide, C9_alphabet_check MOTIF_FORMAT.MEME_FORMAT exBadAlph (by decide)⟩

/-- C10: a match whose adjusted viterbi score is not above LOG_SMALL
leaves the score set untouched — `num_scores_seen` is not incremented,
the reservoir is unchanged and the serial counter does not advance — so
it is invisible to the EVD fit and to the E-value trial count. -/
theorem C10_tiny_scores_invisible (calc_distr : SCORE_SET → EVD_SET)
    (log_small dp_thresh : ℚ) (max_stored : ℕ) (st : ScanSt) (ev : MatchEvent)
    (hsmall : ¬ log_small < ev.viterbi_score) :
    (mcast_process_match calc_distr log_small dp_thresh max_stored st ev).ss = st.ss ∧
    (mcast_process_match calc_distr log_small dp_thresh max_stored st ev).serial_no
      = st.serial_no := by
  unfold mcast_process_match scan_phase_reservoir
  rw [if_neg hsmall]
  exact ⟨rfl, rfl⟩

/-- Witness for C10: a concrete tiny-score match leaves a concrete scan
state's score set untouched. -/
theorem C10_tiny_scores_invisible_witness :
    (¬ (0 : ℚ) < exTinyEvent.viterbi_score) ∧
    ((mcast_process_match exCalcDistr 0 0 1 (initScanSt 1) exTinyEvent).ss
        = (initScanSt 1).ss ∧
      (mcast_process_match exCalcDistr 0 0 1 (initScanSt 1) exTinyEvent).serial_no
        = (initScanSt 1).serial_no) :=
  ⟨by decide, C10_tiny_scores_invisible exCalcDistr 0 0 1 (initScanSt 1) exTinyEvent
    (by decide)⟩

/-- C7, counterexample: in a non-final window of length 1000 with overlap
100, after recording the match (10, 990) the cursor is 991; the next
match (991, 995) starts exactly at the cursor and also lies inside the
trailing overlap region.  The loop defers it (and leaves the cursor at
991) instead of skipping it with the cursor advanced past its end (996),
so clause (a) of the claim fails as stated. -/
theorem C7_counterexample :
    find_all_matches_loop false 1000 100 [exRawM1, exRawM2] 0
      = ([exRawM1], [exRawM2], 991) ∧
    ¬(find_all_matches_loop false 1000 100 [exRawM1, exRawM2] 0).2.2
      = exRawM2.stop + 1 := by
  constructor <;> decide

/-- C7 (amended: the overlap-deferral rule takes precedence over the
skip-at-cursor rule): in the extraction loop, (b) a match starting inside
the trailing overlap region of a non-final window defers itself and the
rest of the stream, leaving the cursor unchanged; (a) a match outside
that region starting exactly at the cursor is skipped without being
recorded, with the cursor advanced past its end; any other match outside
that region is recorded with the cursor advanced past its end; and no
recorded match of a non-final window starts inside the overlap region. -/
theorem C7_extraction_amended (isc : Bool) (seq_length overlap_size sp : ℤ)
    (m : RawMatch) (rest : List RawMatch) :
    ((isc = false ∧ seq_length - overlap_size < m.start) →
      find_all_matches_loop isc seq_length overlap_size (m :: rest) sp
        = ([], m :: rest, sp)) ∧
    ((isc = true ∨ m.start ≤ seq_length - overlap_size) → m.start = sp →
      find_all_matches_loop isc seq_length overlap_size (m :: rest) sp
        = find_all_matches_loop isc seq_length overlap_size rest (m.stop + 1)) ∧
    ((isc = true ∨ m.start ≤ seq_length - overlap_size) → ¬ m.start = sp →
      find_all_matches_loop isc seq_length overlap_size (m :: rest) sp
        = (m :: (find_all_matches_loop isc seq_length overlap_size rest (m.stop + 1)).1,
           (find_all_matches_loop isc seq_length overlap_size rest (m.stop + 1)).2.1,
           (find_all_matches_loop isc seq_length overlap_size rest (m.stop + 1)).2.2)) ∧
    (isc = false → ∀ (ms : List RawMatch) (sp0 : ℤ),
      ∀ x ∈ (find_all_matches_loop isc seq_length overlap_size ms sp0).1,
        x.start ≤ seq_length - overlap_size) := by
  have hnotbreak : ∀ (hout : isc = true ∨ m.start ≤ seq_length - overlap_size),
      ¬(isc = false ∧ seq_length - overlap_size < m.start) := by
    intro hout hcon
    rcases hout with hic | hle
    · rw [hic] at hcon
      simp at hcon
    · exact absurd hcon.2 (not_lt.mpr hle)
  have hunf : find_all_matches_loop isc seq_length overlap_size (m :: rest) sp =
      (if isc = false ∧ seq_length - overlap_size < m.start then
        ([], m :: rest, sp)
      else if m.start = sp then
        find_all_matches_loop isc seq_length overlap_size rest (m.stop + 1)
      else
        (m :: (find_all_matches_loop isc seq_length overlap_size rest (m.stop + 1)).1,
         (find_all_matches_loop isc seq_length overlap_size rest (m.stop + 1)).2.1,
         (find_all_matches_loop isc seq_length overlap_size rest (m.stop + 1)).2.2)) :=
    rfl
  refine ⟨?_, ?_, ?_, ?_⟩
  · intro hcond
    rw [hunf, if_pos hcond]
  · intro hout heq
    rw [hunf, if_neg (hnotbreak hout), if_pos heq]
  · intro hout hne
    rw [hunf, if_neg (hnotbreak hout), if_neg hne]
  · intro hic ms
    induction ms with
    | nil =>
      intro sp0 x hx
      simp [find_all_matches_loop] at hx
    | cons m0 ms0 ih =>
      intro sp0 x hx
      by_cases hbr : isc = false ∧ seq_length - overlap_size < m0.start
      · rw [find_all_matches_loop, if_pos hbr] at hx
        simp at hx
      · by_cases hsk : m0.start = sp0
        · rw [find_all_matches_loop, if_neg hbr, if_pos hsk] at hx
          exact ih (m0.stop + 1) x hx
        · rw [find_all_matches_loop, if_neg hbr, if_neg hsk] at hx
          rcases List.mem_cons.mp hx with hx | hx
          · rw [hx]
            rcases not_and_or.mp hbr with hcon | hle
            · exact absurd hic hcon
            · exact not_lt.mp hle
          · exact ih (m0.stop + 1) x hx

/-- Witness for C7: the amended extraction rules at a concrete non-final
window. -/
theorem C7_extraction_amended_witness :
    ((false : Bool) = false ∧ (1000 : ℤ) - 100 < exRawM2.start) ∧
    find_all_matches_loop false 1000 100 [exRawM2] 991 = ([], [exRawM2], 991) :=
  ⟨⟨rfl, by decide⟩,
    (C7_extraction_amended false 1000 100 991 exRawM2 []).1 ⟨rfl, by decide⟩⟩

end Mcast

namespace Mcast

theorem scan_init_distr_not (calc_distr : SCORE_SET → EVD_SET) (dp_thresh : ℚ)
    (st : ScanSt) (ss1 : SCORE_SET)
    (h : ¬(st.got_init_evd = false ∧ ss1.max_scores_saved ≤ ss1.n)) :
    scan_init_distr calc_distr dp_thresh st ss1
      = (st.got_init_evd, st.evd, st.hs.heap, st.rescore_count) := by
  unfold scan_init_distr
  rw [if_neg h]

theorem scan_init_distr_fit (calc_distr : SCORE_SET → EVD_SET) (dp_thresh : ℚ)
    (st : ScanSt) (ss1 : SCORE_SET) (hg : st.got_init_evd = false)
    (hn : ss1.max_scores_saved ≤ ss1.n) (hfit : 0 < (calc_distr ss1).n) :
    scan_init_distr calc_distr dp_thresh st ss1
      = (true, calc_distr ss1,
         st.hs.heap.map (rescore_match (calc_distr ss1) dp_thresh),
         st.rescore_count + 1) := by
  simp only [scan_init_distr, calc_init_distr]
  rw [if_pos ⟨hg, hn⟩]
  simp only [if_pos hfit]
  simp

theorem scan_init_distr_nofit (calc_distr : SCORE_SET → EVD_SET) (dp_thresh : ℚ)
    (st : ScanSt) (ss1 : SCORE_SET) (hg : st.got_init_evd = false)
    (hn : ss1.max_scores_saved ≤ ss1.n) (hfit : (calc_distr ss1).n = 0) :
    scan_init_distr calc_distr dp_thresh st ss1
      = (false, calc_distr ss1, st.hs.heap, st.rescore_count) := by
  have hnlt : ¬ 0 < (calc_distr ss1).n := by
    rw [hfit]
    exact Nat.lt_irrefl 0
  simp only [scan_init_distr, calc_init_distr]
  rw [if_pos ⟨hg, hn⟩]
  simp only [if_neg hnlt]
  simp

theorem scan_init_count (calc_distr : SCORE_SET → EVD_SET) (dp_thresh : ℚ)
    (st : ScanSt) (ss1 : SCORE_SET) (h : ScanOnceInv st) :
    ((scan_init_distr calc_distr dp_thresh st ss1).1 = false →
      (scan_init_distr calc_distr dp_thresh st ss1).2.2.2 = 0) ∧
    ((scan_init_distr calc_distr dp_thresh st ss1).1 = true →
      (scan_init_distr calc_distr dp_thresh st ss1).2.2.2 = 1) := by
  by_cases hcond : st.got_init_evd = false ∧ ss1.max_scores_saved ≤ ss1.n
  · have hc0 : st.rescore_count = 0 := h.1 hcond.1
    by_cases hfit : 0 < (calc_distr ss1).n
    · rw [scan_init_distr_fit calc_distr dp_thresh st ss1 hcond.1 hcond.2 hfit]
      constructor
      · intro hfalse
        simp at hfalse
      · intro _
        rw [hc0]
    · have hzero : (calc_distr ss1).n = 0 := Nat.eq_zero_of_not_pos hfit
      rw [scan_init_distr_nofit calc_distr dp_thresh st ss1 hcond.1 hcond.2 hzero]
      constructor
      · intro _
        exact hc0
      · intro htrue
        simp at htrue
  · rw [scan_init_distr_not calc_distr dp_thresh st ss1 hcond]
    exact ⟨fun hf => h.1 hf, fun ht => h.2 ht⟩

theorem scanOnceInv_step (calc_distr : SCORE_SET → EVD_SET)
    (log_small dp_thresh : ℚ) (max_stored : ℕ) (st : ScanSt) (ev : MatchEvent)
    (h : ScanOnceInv st) :
    ScanOnceInv (mcast_process_match calc_distr log_small dp_thresh max_stored st ev) := by
  obtain ⟨hcnt0, hcnt1⟩ :=
    scan_init_count calc_distr dp_thresh st (scan_phase_reservoir log_small st ev).1 h
  exact ⟨fun hf => hcnt0 hf, fun ht => hcnt1 ht⟩

theorem scanOnceInv_fold (calc_distr : SCORE_SET → EVD_SET)
    (log_small dp_thresh : ℚ) (max_stored : ℕ) :
    ∀ (evs : List MatchEvent) (st : ScanSt), ScanOnceInv st →
      ScanOnceInv (evs.foldl
        (mcast_process_match calc_distr log_small dp_thresh max_stored) st) := by
  intro evs
  induction evs with
  | nil => intro st h; exact h
  | cons e es ih =>
    intro st h
    exact ih _ (scanOnceInv_step calc_distr log_small dp_thresh max_stored st e h)

/-- C4: (i) over any scan, the heap re-scoring performed by a successful
provisional fit happens at most once, and exactly once iff the scan ends
holding a provisional EVD model; (ii) once `got_init_evd` is set, a later
match never changes the EVD model or the re-score count; (iii) on the
match at which the reservoir has filled while `got_init_evd` is still
false, the fit is computed, and if it yields at least one bin every heap
record is re-scored against it (its GC bin and p-value recomputed) with
the flag set, while a failed fit leaves the heap and the flag unchanged
so the fit is retried on the next match. -/
theorem C4_provisional_fit_once (calc_distr : SCORE_SET → EVD_SET)
    (log_small dp_thresh : ℚ) (max_stored : ℕ) :
    (∀ evs : List MatchEvent,
      ProvisionalFitOnceOK calc_distr log_small dp_thresh max_stored evs) ∧
    (∀ (st : ScanSt) (ev : MatchEvent), st.got_init_evd = true →
      (mcast_process_match calc_distr log_small dp_thresh max_stored st ev).got_init_evd
          = true ∧
      (mcast_process_match calc_distr log_small dp_thresh max_stored st ev).evd = st.evd ∧
      (mcast_process_match calc_distr log_small dp_thresh max_stored st ev).rescore_count
          = st.rescore_count) ∧
    (∀ (st : ScanSt) (ss1 : SCORE_SET), st.got_init_evd = false →
      ss1.max_scores_saved ≤ ss1.n →
      (0 < (calc_distr ss1).n →
        scan_init_distr calc_distr dp_thresh st ss1
          = (true, calc_distr ss1,
             st.hs.heap.map (rescore_match (calc_distr ss1) dp_thresh),
             st.rescore_count + 1)) ∧
      ((calc_distr ss1).n = 0 →
        scan_init_distr calc_distr dp_thresh st ss1
          = (false, calc_distr ss1, st.hs.heap, st.rescore_count))) := by
  refine ⟨?_, ?_, ?_⟩
  · intro evs
    have hinv : ScanOnceInv (mcast_read_and_score calc_distr log_small dp_thresh
        max_stored evs) := by
      apply scanOnceInv_fold
      exact ⟨fun _ => rfl, fun ht => by simp [initScanSt] at ht⟩
    obtain ⟨h0, h1⟩ := hinv
    constructor
    · cases hgot : (mcast_read_and_score calc_distr log_small dp_thresh
          max_stored evs).got_init_evd with
      | false => rw [h0 hgot]; omega
      | true => rw [h1 hgot]
    · constructor
      · intro hgot
        exact h1 hgot
      · intro hcnt
        cases hgot : (mcast_read_and_score calc_distr log_small dp_thresh
            max_stored evs).got_init_evd with
        | false => rw [h0 hgot] at hcnt; simp at hcnt
        | true => rfl
  · intro st ev hgot
    have hcond : ¬(st.got_init_evd = false ∧
        (scan_phase_reservoir log_small st ev).1.max_scores_saved ≤
          (scan_phase_reservoir log_small st ev).1.n) := by
      intro hcon
      rw [hgot] at hcon
      simp at hcon
    have heq := scan_init_distr_not calc_distr dp_thresh st
      (scan_phase_reservoir log_small st ev).1 hcond
    refine ⟨?_, ?_, ?_⟩
    · show (scan_init_distr calc_distr dp_thresh st
        (scan_phase_reservoir log_small st ev).1).1 = true
      rw [heq]
      exact hgot
    · show (scan_init_distr calc_distr dp_thresh st
        (scan_phase_reservoir log_small st ev).1).2.1 = st.evd
      rw [heq]
    · show (scan_init_distr calc_distr dp_thresh st
        (scan_phase_reservoir log_small st ev).1).2.2.2 = st.rescore_count
      rw [heq]
  · intro st ss1 hg hn
    exact ⟨fun hfit => scan_init_distr_fit calc_distr dp_thresh st ss1 hg hn hfit,
           fun hzero => scan_init_distr_nofit calc_distr dp_thresh st ss1 hg hn hzero⟩

/-- Witness for C4: the once-only property over a concrete scan and the
successful-fit equation at a concrete filled state. -/
theorem C4_provisional_fit_once_witness :
    ProvisionalFitOnceOK exCalcDistrFit 0 0 1 [exTinyEvent] ∧
    ((initScanSt 0).got_init_evd = false ∧
      (initScoreSet 0).max_scores_saved ≤ (initScoreSet 0).n ∧
      0 < (exCalcDistrFit (initScoreSet 0)).n) ∧
    scan_init_distr exCalcDistrFit 0 (initScanSt 0) (initScoreSet 0)
      = (true, exCalcDistrFit (initScoreSet 0), [], 1) :=
  ⟨(C4_provisional_fit_once exCalcDistrFit 0 0 1).1 [exTinyEvent],
   ⟨rfl, by decide, by decide⟩,
   ((C4_provisional_fit_once exCalcDistrFit 0 0 1).2.2 (initScanSt 0) (initScoreSet 0)
      rfl (by decide)).1 (by decide)⟩

end Mcast

namespace Mcast

theorem mem_zipWith_qvalue :
    ∀ (l : List MCAST_MATCH) (qs : List ℚ) (x : MCAST_MATCH),
      x ∈ List.zipWith (fun r q => { r with qvalue := q }) l qs →
      ∃ rr ∈ l, x.score = rr.score ∧ x.gc = rr.gc ∧ x.pvalue = rr.pvalue ∧
        x.evalue = rr.evalue := by
  intro l
  induction l with
  | nil => intro qs x hx; simp at hx
  | cons a as ih =>
    intro qs x hx
    cases qs with
    | nil => simp at hx
    | cons q qs =>
      rw [List.zipWith_cons_cons] at hx
      rcases List.mem_cons.mp hx with hx | hx
      · exact ⟨a, List.mem_cons_self _ _, by rw [hx], by rw [hx], by rw [hx], by rw [hx]⟩
      · obtain ⟨rr, hrr, hprop⟩ := ih qs x hx
        exact ⟨rr, List.mem_cons_of_mem _ hrr, hprop⟩

/-- C8: when matches exist and the synthetic-background fit yields at
least one bin, the finalization sets the EVD set's `N` to
`score_set->num_scores_seen` — the total number of real match scores
observed, not the number sampled or retained — and every finalized match
carries `evalue = num_scores_seen * pvalue`, where the p-value is the one
recomputed from the synthetic-background model. -/
theorem C8_evalue_scaling (generate_synth : SCORE_SET → EVD_SET)
    (compute_qvalues : ℕ → List ℚ → List ℚ → List ℚ)
    (mcast_matches : List MCAST_MATCH) (evd0 : EVD_SET) (ss : SCORE_SET)
    (dp_thresh : ℚ) (hm : 0 < mcast_matches.length)
    (hfit : 0 < (generate_synth ss).n) :
    EvalueScalingOK generate_synth compute_qvalues mcast_matches evd0 ss dp_thresh := by
  have hfin : mcast_finalize generate_synth compute_qvalues mcast_matches evd0
      ss dp_thresh
      = ⟨calc_pq_values compute_qvalues mcast_matches
          { generate_synth ss with N := (ss.num_scores_seen : ℚ) } ss dp_thresh
          ss.num_scores_seen,
        { generate_synth ss with N := (ss.num_scores_seen : ℚ) }⟩ := by
    simp only [mcast_finalize]
    rw [if_pos hm, if_pos hfit]
  constructor
  · rw [hfin]
  · rw [hfin]
    intro r hr
    have hne : ¬({ generate_synth ss with
        N := ((ss.num_scores_seen : ℚ)) } : EVD_SET).n = 0 := by
      show ¬(generate_synth ss).n = 0
      omega
    simp only [FinalizeResult.mcast_matches] at hr
    unfold calc_pq_values at hr
    rw [if_neg hne] at hr
    obtain ⟨rr, hrr2, hsc, hgc, hpv, hev⟩ := mem_zipWith_qvalue _ _ r hr
    have hrr1 : rr ∈ mcast_matches.map (fun r0 =>
        { r0 with
          gc_bin := ({ generate_synth ss with
            N := ((ss.num_scores_seen : ℚ)) } : EVD_SET).bin r0.gc,
          pvalue := some (({ generate_synth ss with
            N := ((ss.num_scores_seen : ℚ)) } : EVD_SET).pv (r0.score - dp_thresh) r0.gc),
          evalue := ((ss.num_scores_seen : ℕ) : ℚ) *
            ({ generate_synth ss with
              N := ((ss.num_scores_seen : ℚ)) } : EVD_SET).pv (r0.score - dp_thresh) r0.gc }) :=
      (List.mergeSort_perm _ pvalLe).mem_iff.mp hrr2
    obtain ⟨r0, hr0, hfr⟩ := List.mem_map.mp hrr1
    constructor
    · rw [hpv, hsc, hgc, ← hfr]
    · rw [hev, hsc, hgc, ← hfr]

/-- Witness for C8: the E-value scaling at a concrete one-match run with
a concrete one-bin synthetic fit. -/
theorem C8_evalue_scaling_witness :
    (0 < ([exMatchA] : List MCAST_MATCH).length ∧ 0 < (exSynthGen exScoreSet).n) ∧
    EvalueScalingOK exSynthGen exComputeQ [exMatchA] emptyEVD exScoreSet 1 :=
  ⟨⟨by decide, by decide⟩,
    C8_evalue_scaling exSynthGen exComputeQ [exMatchA] emptyEVD exScoreSet 1
      (by decide) (by decide)⟩

end Mcast

namespace Mcast

theorem reservoir_mechanism (ss : SCORE_SET) (serial_no : ℚ) (ev : MatchEvent) :
    ReservoirMechanismOK ss serial_no ev := by
  refine ⟨?_, ?_, ?_, ?_⟩
  · unfold mcast_record_score
    by_cases h1 : ss.n < ss.max_scores_saved
    · rw [if_pos h1]
    · rw [if_neg h1]
      by_cases h2 : ev.draw < ss.max_scores_saved
      · rw [if_pos h2]
      · rw [if_neg h2]
  · intro h1
    unfold mcast_record_score
    rw [if_pos h1]
    exact ⟨rfl, rfl⟩
  · intro h1
    unfold mcast_record_score
    rw [if_neg h1]
    refine ⟨?_, ?_, ?_⟩
    · by_cases h2 : ev.draw < ss.max_scores_saved
      · rw [if_pos h2]
      · rw [if_neg h2]
    · intro h2
      rw [if_pos h2]
    · intro h2
      rw [if_neg h2]
  · intro hsz
    obtain ⟨hlen, hmin⟩ := hsz
    unfold mcast_record_score
    by_cases h1 : ss.n < ss.max_scores_saved
    · rw [if_pos h1]
      constructor
      · show (ss.scores ++ [score_sample serial_no ev]).length = ss.n + 1
        rw [List.length_append, hlen]
        rfl
      · show ss.n + 1 = min (ss.num_scores_seen + 1) ss.max_scores_saved
        omega
    · rw [if_neg h1]
      by_cases h2 : ev.draw < ss.max_scores_saved
      · rw [if_pos h2]
        constructor
        · show (ss.scores.set ev.draw (score_sample serial_no ev)).length = ss.n
          rw [List.length_set, hlen]
        · show ss.n = min (ss.num_scores_seen + 1) ss.max_scores_saved
          omega
      · rw [if_neg h2]
        constructor
        · exact hlen
        · show ss.n = min (ss.num_scores_seen + 1) ss.max_scores_saved
          omega

theorem sum_map_ite_count {α : Type} (p : α → Bool) (c : ℕ) :
    ∀ l : List α, (l.map (fun a => if p a then c else 0)).sum = c * l.countP p := by
  intro l
  induction l with
  | nil => simp
  | cons a as ih =>
    rw [List.map_cons, List.sum_cons, ih, List.countP_cons]
    by_cases hp : p a
    · rw [if_pos hp, if_pos hp]
      ring
    · rw [if_neg hp, if_neg (by simp [hp])]
      ring

theorem sum_map_const {α : Type} (c : ℕ) :
    ∀ l : List α, (l.map (fun _ => c)).sum = c * l.length := by
  intro l
  induction l with
  | nil => simp
  | cons a as ih =>
    rw [List.map_cons, List.sum_cons, ih, List.length_cons]
    ring

theorem countP_eq_one_of_nodup {l : List ℕ} {a : ℕ} (hnd : l.Nodup) (ha : a ∈ l) :
    l.countP (fun i => decide (i = a)) = 1 := by
  induction l with
  | nil => simp at ha
  | cons b bs ih =>
    rw [List.countP_cons]
    rcases List.mem_cons.mp ha with hba | ha'
    · have hz : bs.countP (fun i => decide (i = a)) = 0 := by
        rw [List.countP_eq_zero]
        intro x hx
        simp only [decide_eq_true_eq]
        intro hcon
        rw [hcon, hba] at hx
        exact (List.nodup_cons.mp hnd).1 hx
      rw [hz]
      simp [hba]
    · have hba : ¬(b = a) := by
        intro hcon
        rw [hcon] at hnd
        exact (List.nodup_cons.mp hnd).1 ha'
      rw [ih (List.nodup_cons.mp hnd).2 ha']
      simp [hba]

theorem countP_lt_range (c : ℕ) :
    ∀ n : ℕ, (List.range n).countP (fun i => decide (i < c)) = min c n := by
  intro n
  induction n with
  | zero => simp
  | succ n ih =>
    rw [List.range_succ, List.countP_append, ih]
    by_cases hn : n < c
    · simp only [List.countP_cons, List.countP_nil]
      rw [if_pos (by simpa using hn)]
      omega
    · simp only [List.countP_cons, List.countP_nil]
      rw [if_neg (by simpa using hn)]
      omega

theorem validDraws_length : ∀ (t : ℕ), ∀ d ∈ validDraws t, d.length = t := by
  intro t
  induction t with
  | zero =>
    intro d hd
    simp only [validDraws, List.mem_singleton] at hd
    rw [hd]
    rfl
  | succ t ih =>
    intro d hd
    simp only [validDraws] at hd
    rw [List.mem_flatMap] at hd
    obtain ⟨d1, hd1, hmem⟩ := hd
    rw [List.mem_map] at hmem
    obtain ⟨i, _, rfl⟩ := hmem
    simp [ih d1 hd1]

theorem runRes_append (cap : ℕ) (d : List ℕ) (i : ℕ) :
    runRes cap (d ++ [i]) =
      (mcast_record_score (runRes cap d) 0 (sampleEvent d.length i)).1 := by
  unfold runRes
  have hlen : (d ++ [i]).length = d.length + 1 := by simp
  rw [hlen, List.range_succ, List.zip_append (by simp), List.foldl_append]
  rfl

theorem resShape_init (cap : ℕ) : ResShape cap 0 (initScoreSet cap) := by
  refine ⟨rfl, rfl, by simp [initScoreSet], by simp [initScoreSet], ?_, ?_⟩
  · intro k hk
    simp [initScoreSet] at hk
  · intro k1 k2 h1 h2 _
    simp [initScoreSet] at h1

end Mcast

namespace Mcast

theorem resShape_step (cap N : ℕ) (ss : SCORE_SET) (i : ℕ)
    (h : ResShape cap N ss) :
    ResShape cap (N + 1) (mcast_record_score ss 0 (sampleEvent N i)).1 := by
  obtain ⟨hseen, hmax, hn, hlen, hval, hinj⟩ := h
  by_cases hfill : ss.n < ss.max_scores_saved
  · -- filling phase: append
    have hNlt : N < cap := by
      rw [hmax] at hfill
      rcases Nat.lt_or_ge N cap with h1 | h2
      · exact h1
      · rw [Nat.min_eq_right h2] at hn
        omega
    have heq : (mcast_record_score ss 0 (sampleEvent N i)).1 =
        { ss with num_scores_seen := ss.num_scores_seen + 1, n := ss.n + 1,
                  scores := ss.scores ++ [score_sample 0 (sampleEvent N i)],
                  max_t := if ss.max_t < (sampleEvent N i).length
                           then (sampleEvent N i).length else ss.max_t } := by
      unfold mcast_record_score
      rw [if_pos hfill]
    rw [heq]
    have hmin : min N cap = N := Nat.min_eq_left (le_of_lt hNlt)
    have hlenN : ss.scores.length = N := by rw [hlen, hmin]
    refine ⟨by simp [hseen], by simp [hmax], ?_, ?_, ?_, ?_⟩
    · show ss.n + 1 = min (N + 1) cap
      rw [hn, hmin, Nat.min_eq_left hNlt]
    · show (ss.scores ++ [score_sample 0 (sampleEvent N i)]).length = min (N + 1) cap
      rw [List.length_append, hlenN, Nat.min_eq_left hNlt]
      rfl
    · intro k hk
      simp only [List.length_append, List.length_cons, List.length_nil] at hk
      by_cases hkl : k < ss.scores.length
      · obtain ⟨j, hj, hjs⟩ := hval k hkl
        refine ⟨j, by omega, ?_⟩
        show ((ss.scores ++ [score_sample 0 (sampleEvent N i)])[k]).s = (j : ℚ)
        rw [List.getElem_append_left hkl]
        exact hjs
      · have hkeq : k = ss.scores.length := by omega
        refine ⟨N, by omega, ?_⟩
        show ((ss.scores ++ [score_sample 0 (sampleEvent N i)])[k]).s = (N : ℚ)
        rw [List.getElem_concat_length _ _ _ hkeq]
        rfl
    · intro k1 k2 h1 h2 hs
      simp only [List.length_append, List.length_cons, List.length_nil] at h1 h2
      by_cases hk1 : k1 < ss.scores.length <;> by_cases hk2 : k2 < ss.scores.length
      · rw [List.getElem_append_left hk1, List.getElem_append_left hk2] at hs
        exact hinj k1 k2 hk1 hk2 hs
      · have hk2e : k2 = ss.scores.length := by omega
        rw [List.getElem_append_left hk1, List.getElem_concat_length _ _ _ hk2e] at hs
        obtain ⟨j, hj, hjs⟩ := hval k1 hk1
        rw [hjs] at hs
        have hjN : j = N := Nat.cast_injective hs
        exfalso
        rw [hlenN] at hk1
        omega
      · have hk1e : k1 = ss.scores.length := by omega
        rw [List.getElem_append_left hk2, List.getElem_concat_length _ _ _ hk1e] at hs
        obtain ⟨j, hj, hjs⟩ := hval k2 hk2
        rw [hjs] at hs
        have hjN : j = N := Nat.cast_injective hs.symm
        exfalso
        rw [hlenN] at hk2
        omega
      · omega
  · -- reservoir full
    have hcapN : cap ≤ N := by
      rw [hmax] at hfill
      rcases Nat.lt_or_ge N cap with h1 | h2
      · rw [Nat.min_eq_left (le_of_lt h1)] at hn
        omega
      · exact h2
    have hmincap : min N cap = cap := Nat.min_eq_right hcapN
    have hlencap : ss.scores.length = cap := by rw [hlen, hmincap]
    by_cases hdraw : (sampleEvent N i).draw < ss.max_scores_saved
    · have heq : (mcast_record_score ss 0 (sampleEvent N i)).1 =
          { ss with num_scores_seen := ss.num_scores_seen + 1,
                    scores := ss.scores.set (sampleEvent N i).draw
                                (score_sample 0 (sampleEvent N i)),
                    max_t := if ss.max_t < (sampleEvent N i).length
                             then (sampleEvent N i).length else ss.max_t } := by
        unfold mcast_record_score
        rw [if_neg hfill, if_pos hdraw]
      rw [heq]
      refine ⟨by simp [hseen], by simp [hmax], ?_, ?_, ?_, ?_⟩
      · show ss.n = min (N + 1) cap
        rw [hn, hmincap, Nat.min_eq_right (by omega)]
      · show (ss.scores.set (sampleEvent N i).draw
            (score_sample 0 (sampleEvent N i))).length = min (N + 1) cap
        rw [List.length_set, hlen, hmincap, Nat.min_eq_right (by omega)]
      · intro k hk
        simp only [List.length_set] at hk
        show ∃ j, j < N + 1 ∧
          ((ss.scores.set (sampleEvent N i).draw (score_sample 0 (sampleEvent N i)))[k]).s
            = (j : ℚ)
        rw [List.getElem_set]
        by_cases hik : (sampleEvent N i).draw = k
        · rw [if_pos hik]
          exact ⟨N, by omega, rfl⟩
        · rw [if_neg hik]
          obtain ⟨j, hj, hjs⟩ := hval k hk
          exact ⟨j, by omega, hjs⟩
      · intro k1 k2 h1 h2 hs
        simp only [List.length_set] at h1 h2
        rw [List.getElem_set, List.getElem_set] at hs
        by_cases e1 : (sampleEvent N i).draw = k1 <;>
          by_cases e2 : (sampleEvent N i).draw = k2
        · omega
        · rw [if_pos e1, if_neg e2] at hs
          obtain ⟨j, hj, hjs⟩ := hval k2 h2
          rw [hjs] at hs
          have hjN : j = N := Nat.cast_injective hs.symm
          omega
        · rw [if_neg e1, if_pos e2] at hs
          obtain ⟨j, hj, hjs⟩ := hval k1 h1
          rw [hjs] at hs
          have hjN : j = N := Nat.cast_injective hs
          omega
        · rw [if_neg e1, if_neg e2] at hs
          exact hinj k1 k2 h1 h2 hs
    · have heq : (mcast_record_score ss 0 (sampleEvent N i)).1 =
          { ss with num_scores_seen := ss.num_scores_seen + 1 } := by
        unfold mcast_record_score
        rw [if_neg hfill, if_neg hdraw]
      rw [heq]
      refine ⟨by simp [hseen], by simp [hmax], ?_, ?_, ?_, ?_⟩
      · show ss.n = min (N + 1) cap
        rw [hn, hmincap, Nat.min_eq_right (by omega)]
      · show ss.scores.length = min (N + 1) cap
        rw [hlen, hmincap, Nat.min_eq_right (by omega)]
      · intro k hk
        obtain ⟨j, hj, hjs⟩ := hval k hk
        exact ⟨j, by omega, hjs⟩
      · exact hinj

theorem resShape_mem (cap : ℕ) :
    ∀ (N : ℕ), ∀ d ∈ validDraws N, ResShape cap N (runRes cap d) := by
  intro N
  induction N with
  | zero =>
    intro d hd
    simp only [validDraws, List.mem_singleton] at hd
    rw [hd]
    exact resShape_init cap
  | succ N ih =>
    intro d hd
    simp only [validDraws] at hd
    rw [List.mem_flatMap] at hd
    obtain ⟨d1, hd1, hmem⟩ := hd
    rw [List.mem_map] at hmem
    obtain ⟨i, _, rfl⟩ := hmem
    rw [runRes_append, validDraws_length N d1 hd1]
    exact resShape_step cap N (runRes cap d1) i (ih d1 hd1)

theorem runRes_fill (cap : ℕ) :
    ∀ (d : List ℕ), d.length ≤ cap →
      (runRes cap d).num_scores_seen = d.length ∧
      (runRes cap d).n = d.length ∧
      (runRes cap d).max_scores_saved = cap ∧
      (runRes cap d).scores
        = (List.range d.length).map (fun t => score_sample 0 (sampleEvent t 0)) := by
  intro d
  induction d using List.reverseRecOn with
  | nil => intro _; exact ⟨rfl, rfl, rfl, rfl⟩
  | append_singleton d1 i ih =>
    intro hle
    have hlen1 : (d1 ++ [i]).length = d1.length + 1 := by simp
    have hle1 : d1.length ≤ cap := by omega
    obtain ⟨ihseen, ihn, ihmax, ihsc⟩ := ih hle1
    rw [runRes_append]
    have hfill : (runRes cap d1).n < (runRes cap d1).max_scores_saved := by
      rw [ihn, ihmax]
      omega
    unfold mcast_record_score
    rw [if_pos hfill]
    refine ⟨?_, ?_, ?_, ?_⟩
    · show (runRes cap d1).num_scores_seen + 1 = (d1 ++ [i]).length
      rw [ihseen, hlen1]
    · show (runRes cap d1).n + 1 = (d1 ++ [i]).length
      rw [ihn, hlen1]
    · exact ihmax
    · show (runRes cap d1).scores ++ [score_sample 0 (sampleEvent d1.length i)]
          = (List.range (d1 ++ [i]).length).map (fun t => score_sample 0 (sampleEvent t 0))
      rw [ihsc, hlen1, List.range_succ, List.map_append]
      simp [score_sample, sampleEvent]

theorem runRes_step_scores (cap N : ℕ) (d : List ℕ) (i : ℕ)
    (hlen : d.length = N)
    (hn : (runRes cap d).n = min N cap)
    (hmax : (runRes cap d).max_scores_saved = cap)
    (hcapN : cap ≤ N) :
    (runRes cap (d ++ [i])).scores =
      (if i < cap then
        (runRes cap d).scores.set i (score_sample 0 (sampleEvent N i))
       else (runRes cap d).scores) := by
  rw [runRes_append, hlen]
  have hnotfill : ¬((runRes cap d).n < (runRes cap d).max_scores_saved) := by
    rw [hn, hmax, Nat.min_eq_right hcapN]
    omega
  unfold mcast_record_score
  rw [if_neg hnotfill]
  by_cases hi : i < cap
  · rw [if_pos (show (sampleEvent N i).draw < (runRes cap d).max_scores_saved from by
      rw [hmax]; exact hi), if_pos hi]
    rfl
  · rw [if_neg (show ¬(sampleEvent N i).draw < (runRes cap d).max_scores_saved from by
      rw [hmax]; exact hi), if_neg hi]

end Mcast

namespace Mcast

theorem countP_congr_list {α : Type} (p q : α → Bool) :
    ∀ l : List α, (∀ x ∈ l, p x = q x) → l.countP p = l.countP q := by
  intro l
  induction l with
  | nil => intro _; rfl
  | cons a as ih =>
    intro h
    rw [List.countP_cons, List.countP_cons, h a (List.mem_cons_self a as),
      ih (fun x hx => h x (List.mem_cons_of_mem a hx))]

theorem countP_not_add {α : Type} (p : α → Bool) :
    ∀ l : List α, l.countP (fun a => !p a) + l.countP p = l.length := by
  intro l
  induction l with
  | nil => rfl
  | cons a as ih =>
    rw [List.countP_cons, List.countP_cons, List.length_cons]
    by_cases hp : p a = true
    · rw [if_pos hp, if_neg (by simp [hp])]
      omega
    · rw [if_neg hp, if_pos (by simp [Bool.eq_false_iff.mpr hp])]
      omega

theorem countP_all {α : Type} (p : α → Bool) :
    ∀ l : List α, (∀ x ∈ l, p x = true) → l.countP p = l.length := by
  intro l
  induction l with
  | nil => intro _; rfl
  | cons a as ih =>
    intro h
    rw [List.countP_cons, if_pos (h a (List.mem_cons_self a as)),
      ih (fun x hx => h x (List.mem_cons_of_mem a hx)), List.length_cons]

theorem countP_flatMap_list {α β : Type} (f : α → List β) (p : β → Bool) :
    ∀ l : List α, (l.flatMap f).countP p = (l.map (fun a => (f a).countP p)).sum := by
  intro l
  induction l with
  | nil => rfl
  | cons a as ih =>
    rw [List.flatMap_cons, List.countP_append, ih, List.map_cons, List.sum_cons]

theorem validDraws_length_succ (t : ℕ) :
    (validDraws (t + 1)).length = (validDraws t).length * (t + 1) := by
  show ((validDraws t).flatMap
    (fun d => (List.range (t + 1)).map (fun i => d ++ [i]))).length
      = (validDraws t).length * (t + 1)
  rw [List.length_flatMap]
  have hc : ∀ d ∈ validDraws t,
      (List.length ∘ fun d => List.map (fun i => d ++ [i]) (List.range (t + 1))) d
        = t + 1 := by
    intro d _
    show (List.map (fun i => d ++ [i]) (List.range (t + 1))).length = t + 1
    rw [List.length_map, List.length_range]
  rw [List.map_congr_left hc, sum_map_const]
  exact Nat.mul_comm _ _

theorem resStep_count_lt (cap N j : ℕ) (d : List ℕ) (hd : d ∈ validDraws N)
    (hcapN : cap ≤ N) (hj : j < N) :
    (List.range (N + 1)).countP (fun i => resHolds cap (d ++ [i]) j)
      = if resHolds cap d j then N else 0 := by
  obtain ⟨hseen, hmax, hn, hlen, hval, hinj⟩ := resShape_mem cap N d hd
  have hld := validDraws_length N d hd
  have hsc : (runRes cap d).scores.length = cap := by
    rw [hlen, Nat.min_eq_right hcapN]
  have hstep : ∀ i, (runRes cap (d ++ [i])).scores =
      (if i < cap then
        (runRes cap d).scores.set i (score_sample 0 (sampleEvent N i))
       else (runRes cap d).scores) :=
    fun i => runRes_step_scores cap N d i hld hn hmax hcapN
  by_cases hh : resHolds cap d j
  · rw [if_pos hh]
    have hh' := hh
    unfold resHolds at hh'
    obtain ⟨sc, hscmem, hscj'⟩ := List.any_eq_true.mp hh'
    have hscj : sc.s = (j : ℚ) := of_decide_eq_true hscj'
    obtain ⟨kj, hkj, hkjeq⟩ := List.mem_iff_getElem.mp hscmem
    have hkjcap : kj < cap := by rw [hsc] at hkj; exact hkj
    have key : ∀ i ∈ List.range (N + 1),
        resHolds cap (d ++ [i]) j = !decide (i = kj) := by
      intro i _
      unfold resHolds
      rw [hstep i]
      by_cases hic : i < cap
      · rw [if_pos hic]
        by_cases hik : i = kj
        · have hr : (!decide (i = kj)) = false := by simp [hik]
          rw [hr]
          refine Bool.eq_false_iff.mpr ?_
          intro hcon
          obtain ⟨x, hxmem, hpx⟩ := List.any_eq_true.mp hcon
          obtain ⟨k, hk, hkx⟩ := List.mem_iff_getElem.mp hxmem
          have hkb : k < (runRes cap d).scores.length := by
            rw [List.length_set] at hk
            exact hk
          rw [List.getElem_set] at hkx
          by_cases hikk : i = k
          · rw [if_pos hikk] at hkx
            have hxs : x.s = (N : ℚ) := by rw [← hkx]; rfl
            have : (N : ℚ) = (j : ℚ) := by
              rw [← hxs]; exact of_decide_eq_true hpx
            have : N = j := Nat.cast_injective this
            omega
          · rw [if_neg hikk] at hkx
            have hxs : x.s = (j : ℚ) := of_decide_eq_true hpx
            have hke : k = kj := by
              refine hinj k kj hkb hkj ?_
              rw [hkx, hxs, hkjeq, hscj]
            omega
        · have hr : (!decide (i = kj)) = true := by simp [hik]
          rw [hr]
          rw [List.any_eq_true]
          have hklen : kj < ((runRes cap d).scores.set i
              (score_sample 0 (sampleEvent N i))).length := by
            rw [List.length_set]
            exact hkj
          refine ⟨((runRes cap d).scores.set i
            (score_sample 0 (sampleEvent N i)))[kj], List.getElem_mem hklen, ?_⟩
          have hval' : ((runRes cap d).scores.set i
              (score_sample 0 (sampleEvent N i)))[kj] = (runRes cap d).scores[kj] := by
            rw [List.getElem_set, if_neg hik]
          rw [hval', hkjeq]
          exact decide_eq_true hscj
      · rw [if_neg hic]
        have hik : ¬ i = kj := by omega
        have hr : (!decide (i = kj)) = true := by simp [hik]
        rw [hr, List.any_eq_true]
        exact ⟨sc, hscmem, decide_eq_true hscj⟩
    rw [countP_congr_list _ _ _ key]
    have hone : (List.range (N + 1)).countP (fun i => decide (i = kj)) = 1 :=
      countP_eq_one_of_nodup (List.nodup_range _)
        (List.mem_range.mpr (by omega))
    have hadd := countP_not_add (fun i => decide (i = kj)) (List.range (N + 1))
    rw [hone, List.length_range] at hadd
    omega
  · rw [if_neg hh]
    have hhf : resHolds cap d j = false := Bool.eq_false_iff.mpr hh
    unfold resHolds at hhf
    have hnone := List.any_eq_false.mp hhf
    rw [List.countP_eq_zero]
    intro i _
    simp only [Bool.not_eq_true]
    unfold resHolds
    rw [hstep i]
    by_cases hic : i < cap
    · rw [if_pos hic]
      refine Bool.eq_false_iff.mpr ?_
      intro hcon
      obtain ⟨x, hxmem, hpx⟩ := List.any_eq_true.mp hcon
      obtain ⟨k, hk, hkx⟩ := List.mem_iff_getElem.mp hxmem
      have hkb : k < (runRes cap d).scores.length := by
        rw [List.length_set] at hk
        exact hk
      rw [List.getElem_set] at hkx
      by_cases hikk : i = k
      · rw [if_pos hikk] at hkx
        have hxs : x.s = (N : ℚ) := by rw [← hkx]; rfl
        have : (N : ℚ) = (j : ℚ) := by
          rw [← hxs]; exact of_decide_eq_true hpx
        have : N = j := Nat.cast_injective this
        omega
      · rw [if_neg hikk] at hkx
        refine hnone (runRes cap d).scores[k] (List.getElem_mem hkb) ?_
        rw [hkx]
        exact hpx
    · rw [if_neg hic]
      exact hhf

theorem resStep_count_new (cap N : ℕ) (d : List ℕ) (hd : d ∈ validDraws N)
    (hcapN : cap ≤ N) :
    (List.range (N + 1)).countP (fun i => resHolds cap (d ++ [i]) N) = cap := by
  obtain ⟨hseen, hmax, hn, hlen, hval, hinj⟩ := resShape_mem cap N d hd
  have hld := validDraws_length N d hd
  have hstep : ∀ i, (runRes cap (d ++ [i])).scores =
      (if i < cap then
        (runRes cap d).scores.set i (score_sample 0 (sampleEvent N i))
       else (runRes cap d).scores) :=
    fun i => runRes_step_scores cap N d i hld hn hmax hcapN
  have key : ∀ i ∈ List.range (N + 1),
      resHolds cap (d ++ [i]) N = decide (i < cap) := by
    intro i _
    unfold resHolds
    rw [hstep i]
    by_cases hic : i < cap
    · rw [if_pos hic]
      have hr : decide (i < cap) = true := decide_eq_true hic
      rw [hr, List.any_eq_true]
      have hib : i < (runRes cap d).scores.length := by
        rw [hlen, Nat.min_eq_right hcapN]
        exact hic
      have hilen : i < ((runRes cap d).scores.set i
          (score_sample 0 (sampleEvent N i))).length := by
        rw [List.length_set]
        exact hib
      refine ⟨((runRes cap d).scores.set i
        (score_sample 0 (sampleEvent N i)))[i], List.getElem_mem hilen, ?_⟩
      have hval' : ((runRes cap d).scores.set i
          (score_sample 0 (sampleEvent N i)))[i]
            = score_sample 0 (sampleEvent N i) := by
        rw [List.getElem_set, if_pos rfl]
      rw [hval']
      exact decide_eq_true rfl
    · rw [if_neg hic]
      have hr : decide (i < cap) = false := decide_eq_false hic
      rw [hr]
      refine Bool.eq_false_iff.mpr ?_
      intro hcon
      obtain ⟨x, hxmem, hpx⟩ := List.any_eq_true.mp hcon
      obtain ⟨k, hk, hkx⟩ := List.mem_iff_getElem.mp hxmem
      obtain ⟨j', hj', hjs⟩ := hval k hk
      have hxs : x.s = (N : ℚ) := of_decide_eq_true hpx
      rw [← hkx, hjs] at hxs
      have : j' = N := Nat.cast_injective hxs
      omega
  rw [countP_congr_list _ _ _ key, countP_lt_range]
  omega

theorem reservoir_uniform (cap : ℕ) :
    ∀ N, cap ≤ N → ∀ j, j < N → ReservoirUniformOK cap N j := by
  intro N hN
  induction N, hN using Nat.le_induction with
  | base =>
    intro j hj
    show ((validDraws cap).countP (fun d => resHolds cap d j)) * cap
      = cap * (validDraws cap).length
    have hall : ∀ d ∈ validDraws cap, resHolds cap d j = true := by
      intro d hd
      have hld := validDraws_length cap d hd
      obtain ⟨_, _, _, hsc⟩ := runRes_fill cap d (le_of_eq hld)
      unfold resHolds
      rw [List.any_eq_true]
      refine ⟨score_sample 0 (sampleEvent j 0), ?_, ?_⟩
      · rw [hsc, hld]
        exact List.mem_map.mpr ⟨j, List.mem_range.mpr hj, rfl⟩
      · exact decide_eq_true rfl
    rw [countP_all _ _ hall]
    exact Nat.mul_comm _ _
  | succ N hNge ih =>
    intro j hj
    show ((validDraws (N + 1)).countP (fun d => resHolds cap d j)) * (N + 1)
      = cap * (validDraws (N + 1)).length
    rw [validDraws_length_succ N]
    have hflat : validDraws (N + 1) = (validDraws N).flatMap
        (fun d => (List.range (N + 1)).map (fun i => d ++ [i])) := rfl
    rw [hflat, countP_flatMap_list]
    rcases Nat.lt_succ_iff_lt_or_eq.mp hj with hjN | hjN
    · have hkey : ∀ d ∈ validDraws N,
          ((List.range (N + 1)).map (fun i => d ++ [i])).countP
              (fun l => resHolds cap l j)
            = (if resHolds cap d j then N else 0) := by
        intro d hd
        rw [List.countP_map]
        exact resStep_count_lt cap N j d hd hNge hjN
      rw [List.map_congr_left hkey, sum_map_ite_count]
      have ihj : ((validDraws N).countP (fun d => resHolds cap d j)) * N
          = cap * (validDraws N).length := ih j hjN
      calc N * ((validDraws N).countP (fun d => resHolds cap d j)) * (N + 1)
          = (((validDraws N).countP (fun d => resHolds cap d j)) * N) * (N + 1) := by
            ring
        _ = (cap * (validDraws N).length) * (N + 1) := by rw [ihj]
        _ = cap * ((validDraws N).length * (N + 1)) := by ring
    · subst hjN
      have hkey : ∀ d ∈ validDraws j,
          ((List.range (j + 1)).map (fun i => d ++ [i])).countP
              (fun l => resHolds cap l j)
            = cap := by
        intro d hd
        rw [List.countP_map]
        exact resStep_count_new cap j d hd hNge
      rw [List.map_congr_left hkey, sum_map_const]
      ring

end Mcast

namespace Mcast

/-- C3: for every stream of recorded score samples, the reservoir update
(mcast.c:847-885) increments `num_scores_seen`; while `n < max_scores_saved`
the sample is stored at slot `n` (an append) and `n` is incremented;
otherwise the drawn index from `[0, num_scores_seen)` accepts the sample iff
it is below the capacity and the sample then overwrites that slot — and the
reservoir always holds `min(num_scores_seen, capacity)` scores which form a
uniform sample of the stream: over the exhaustive list of equally likely
draw sequences for `N` samples, each stream element is retained in exactly
the fraction `capacity / N` of them, stated multiplicatively as
`count * N = capacity * total`. -/
theorem C3_reservoir_sampling :
    (∀ (ss : SCORE_SET) (serial_no : ℚ) (ev : MatchEvent),
      ReservoirMechanismOK ss serial_no ev) ∧
    (∀ cap N j : ℕ, cap ≤ N → j < N → ReservoirUniformOK cap N j) := by
  constructor
  · exact reservoir_mechanism
  · intro cap N j h1 h2
    exact reservoir_uniform cap N h1 j h2

theorem C3_reservoir_sampling_witness :
    ReservoirMechanismOK (initScoreSet 1) 0 exTinyEvent ∧
    ReservoirUniformOK 1 2 0 :=
  ⟨C3_reservoir_sampling.1 (initScoreSet 1) 0 exTinyEvent,
   C3_reservoir_sampling.2 1 2 0 (by decide) (by decide)⟩

end Mcast
